import Mathlib

/-!
Verification of the FIFO lot-allocation stock core of `app.py` (CTR STOCK SYSTEM).

The relevant source functions are shallowly embedded as pure Lean functions over an
explicit database state:

* `StockBatch`, `StockMovement`, `Item`, `DB` — the SQLAlchemy models and the table
  contents (rows kept in insertion/autoincrement-id order, plus the id counters).
* `fifo_issue` (with its pieces `activeLotsFor`, `fifoLoop`, `applyDebits`,
  `debitMovements`) — the FIFO allocation routine at `app.py:159-178`.
* `item_summary_row` — the per-item summary read at `app.py:181-215`.
* `receive` — the POST branch of the `/receive` route at `app.py:468-491`.
* `issue` — the POST branch of the `/issue` route at `app.py:494-516`.
* `item_delete` — the `/items/<id>/delete` route at `app.py:451-465`.
* `movements_query` — the `/movements` reporting query at `app.py:365-397`.

Dates and timestamps are modelled as `Nat` (the code only compares them), Python ints as
`Int`, nullable columns as `Option`, and the SQL `ORDER BY` clauses as stable sorts of
the rows in primary-key order, which is how SQLite evaluates them here (full table scan
in rowid order fed into a stable comparison on the given keys).
-/

namespace CTR

/-- A row of the `stock_batch` table (the `StockBatch` model in `app.py`):
received and remaining quantities are Python ints, `expiry_date` is a nullable date and
`received_at` a timestamp. -/
structure StockBatch where
  id : Nat
  item_id : Nat
  qty_received : Int
  qty_remaining : Int
  expiry_date : Option Nat
  received_at : Nat
deriving DecidableEq

/-- A row of the `stock_movement` table (the `StockMovement` model): `type` holds the
string `"receive"` or `"issue"`, `note` is a nullable string and `batch_id` a nullable
reference to the batch the movement touched. -/
structure StockMovement where
  id : Nat
  item_id : Nat
  type : String
  quantity : Int
  timestamp : Nat
  note : Option String
  batch_id : Option Nat
deriving DecidableEq

/-- A row of the `item` table (the `Item` model); only the fields the stock core reads. -/
structure Item where
  id : Nat
  name : String
  category_id : Option Nat
deriving DecidableEq

/-- The database state: the three tables, rows in insertion (autoincrement id) order,
together with the autoincrement counters for the two tables the core creates rows in. -/
structure DB where
  items : List Item
  batches : List StockBatch
  movements : List StockMovement
  nextBatchId : Nat
  nextMovId : Nat
deriving DecidableEq

/-- Strict "nulls last" comparison on the nullable expiry column, as produced by
the SQL clause `expiry_date ASC NULLS LAST`: any date sorts before NULL. -/
def expLT : Option Nat → Option Nat → Prop
  | some x, some y => x < y
  | some _, none => True
  | none, _ => False

instance (a b : Option Nat) : Decidable (expLT a b) :=
  match a, b with
  | some x, some y => (inferInstance : Decidable (x < y))
  | some _, none => isTrue trivial
  | none, some _ => isFalse (fun h => h)
  | none, none => isFalse (fun h => h)

/-- The ORDER BY key of the batch query in `fifo_issue`:
`expiry_date ASC NULLS LAST, received_at ASC`. -/
def lotLE (a b : StockBatch) : Prop :=
  expLT a.expiry_date b.expiry_date ∨
    (a.expiry_date = b.expiry_date ∧ a.received_at ≤ b.received_at)

instance : DecidableRel lotLE := fun a b => by
  unfold lotLE; infer_instance

theorem expLT_some_some {x y : Nat} : expLT (some x) (some y) ↔ x < y := Iff.rfl

theorem expLT_some_none {x : Nat} : expLT (some x) none := trivial

theorem expLT_none {o : Option Nat} : ¬ expLT none o := fun h => h

theorem expLT_total (a b : Option Nat) : expLT a b ∨ a = b ∨ expLT b a := by
  rcases a with _ | x <;> rcases b with _ | y
  · exact Or.inr (Or.inl rfl)
  · exact Or.inr (Or.inr trivial)
  · exact Or.inl trivial
  · rcases Nat.lt_trichotomy x y with h | h | h
    · exact Or.inl h
    · exact Or.inr (Or.inl (by rw [h]))
    · exact Or.inr (Or.inr h)

theorem expLT_trans {a b c : Option Nat} (hab : expLT a b) (hbc : expLT b c) :
    expLT a c := by
  rcases a with _ | x <;> rcases b with _ | y <;> rcases c with _ | z <;>
    first
      | exact absurd hab expLT_none
      | exact absurd hbc expLT_none
      | exact absurd hbc expLT_none
      | exact trivial
      | exact expLT_some_some.mpr
          (Nat.lt_trans (expLT_some_some.mp hab) (expLT_some_some.mp hbc))

theorem expLT_irrefl (a : Option Nat) : ¬ expLT a a := by
  rcases a with _ | x
  · exact expLT_none
  · exact fun h => Nat.lt_irrefl x (expLT_some_some.mp h)

instance : IsTotal StockBatch lotLE := by
  constructor
  intro a b
  unfold lotLE
  rcases expLT_total a.expiry_date b.expiry_date with h | h | h
  · exact Or.inl (Or.inl h)
  · rcases Nat.le_total a.received_at b.received_at with h2 | h2
    · exact Or.inl (Or.inr ⟨h, h2⟩)
    · exact Or.inr (Or.inr ⟨h.symm, h2⟩)
  · exact Or.inr (Or.inl h)

instance : IsTrans StockBatch lotLE := by
  constructor
  intro a b c hab hbc
  unfold lotLE at *
  rcases hab with hab | ⟨hab, hra⟩
  · rcases hbc with hbc | ⟨hbc, hrb⟩
    · exact Or.inl (expLT_trans hab hbc)
    · exact Or.inl (hbc ▸ hab)
  · rcases hbc with hbc | ⟨hbc, hrb⟩
    · exact Or.inl (hab ▸ hbc)
    · exact Or.inr ⟨hab.trans hbc, Nat.le_trans hra hrb⟩

/-- The WHERE clause of the batch query in `fifo_issue`:
`item_id == item.id AND qty_remaining > 0`. -/
def activeFilter (itemId : Nat) (b : StockBatch) : Bool :=
  b.item_id == itemId && decide (0 < b.qty_remaining)

/-- The batch query of `fifo_issue` (`app.py:163-168`): the batches of the item that
still have remaining stock, ordered by `expiry_date ASC NULLS LAST, received_at ASC`
(a stable sort of the rows in primary-key order). -/
def activeLotsFor (db : DB) (itemId : Nat) : List StockBatch :=
  List.insertionSort lotLE (db.batches.filter (activeFilter itemId))

/-- The allocation loop of `fifo_issue` (`app.py:169-176`): walk the ordered batches;
stop as soon as `remain <= 0`; at each batch take `min(b.qty_remaining, remain)` and
record the `(batch, take)` debit. Returns the debits in walk order and the final
`remain`. -/
def fifoLoop : List StockBatch → Int → List (StockBatch × Int) × Int
  | [], remain => ([], remain)
  | b :: rest, remain =>
    if remain ≤ 0 then ([], remain)
    else
      let take := min b.qty_remaining remain
      let res := fifoLoop rest (remain - take)
      ((b, take) :: res.1, res.2)

/-- The `StockMovement(item_id=…, type="issue", quantity=take, batch_id=b.id)` rows
appended by the loop of `fifo_issue`, with consecutive autoincrement ids starting at
`startId`; the loop sets no note on them. -/
def debitMovements (itemId : Nat) (now : Nat) (startId : Nat) :
    List (StockBatch × Int) → List StockMovement
  | [] => []
  | d :: ds =>
    { id := startId, item_id := itemId, type := "issue", quantity := d.2,
      timestamp := now, note := none, batch_id := some d.1.id } ::
      debitMovements itemId now (startId + 1) ds

/-- The effect of the `b.qty_remaining -= take` updates on the stored batch table:
each row hit by a debit (rows are keyed by their primary key id) is decremented by the
corresponding take; all other rows are untouched. -/
def applyDebits (ds : List (StockBatch × Int)) (batches : List StockBatch) :
    List StockBatch :=
  batches.map fun b =>
    match ds.find? (fun d => d.1.id == b.id) with
    | some d => { b with qty_remaining := b.qty_remaining - d.2 }
    | none => b

/-- The function `fifo_issue(item, qty)` of `app.py:159-178`: fetch the active batches
in FIFO order, run the allocation loop, commit the decremented batches together with
the new issue movements, and return `qty - remain` (the quantity actually issued). -/
def fifo_issue (db : DB) (item : Item) (qty : Int) (now : Nat) : DB × Int :=
  let lots := activeLotsFor db item.id
  let res := fifoLoop lots qty
  ({ db with
      batches := applyDebits res.1 db.batches
      movements := db.movements ++ debitMovements item.id now db.nextMovId res.1
      nextMovId := db.nextMovId + res.1.length },
    qty - res.2)

/-- Validation outcomes of the `receive` route (a flash message plus redirect, with no
database write). -/
inductive RecvError
  | invalidQty
  | invalidExpiry
deriving DecidableEq

/-- The `expiry` form field of the `receive` route: left empty, malformed (so that
`strptime` raises), or a well-formed date. -/
inductive ExpiryInput
  | empty
  | malformed
  | valid (d : Nat)
deriving DecidableEq

/-- The expiry-parsing block of the `receive` route: an empty field means no expiry, a
malformed one is rejected, otherwise the parsed date is used. -/
def parseExpiry : ExpiryInput → Except RecvError (Option Nat)
  | .empty => .ok none
  | .malformed => .error .invalidExpiry
  | .valid d => .ok (some d)

/-- The POST branch of the `receive` route (`app.py:468-491`): require `qty > 0`, parse
the expiry, then create one `StockBatch` (with `qty_remaining = qty_received = qty`)
and one `receive` movement referencing it, in a single commit. The route only checks
that the submitted `item_id` is numeric; it never looks the item itself up. -/
def receive (db : DB) (item_id : Nat) (qty : Int) (expiry : ExpiryInput)
    (note : String) (now : Nat) : Except RecvError (DB × StockBatch) :=
  if qty ≤ 0 then .error .invalidQty
  else
    match parseExpiry expiry with
    | .error e => .error e
    | .ok exp =>
      let batch : StockBatch :=
        { id := db.nextBatchId, item_id := item_id, qty_received := qty,
          qty_remaining := qty, expiry_date := exp, received_at := now }
      let mov : StockMovement :=
        { id := db.nextMovId, item_id := item_id, type := "receive", quantity := qty,
          timestamp := now, note := some note, batch_id := some batch.id }
      .ok ({ db with
              batches := db.batches ++ [batch],
              movements := db.movements ++ [mov],
              nextBatchId := db.nextBatchId + 1,
              nextMovId := db.nextMovId + 1 }, batch)

/-- Failure outcomes of the `issue` route: rejected quantity, or `get_or_404` on an
unknown item. -/
inductive IssueError
  | invalidQty
  | notFound
deriving DecidableEq

/-- Primary-key lookup of an item (`Item.query.get`). -/
def findItem (db : DB) (itemId : Nat) : Option Item :=
  db.items.find? (fun it => it.id == itemId)

/-- The post-issue note fix-up of the `issue` route (`app.py:511-512`): find the issue
movement of the item with the greatest id (`order_by(id.desc()).first()`) and store the
note on that row. -/
def setNoteOnLastIssue (db : DB) (itemId : Nat) (note : String) : DB :=
  match ((db.movements.filter fun m =>
      m.item_id == itemId && m.type == "issue").map (·.id)).max? with
  | none => db
  | some j =>
    { db with movements := db.movements.map fun m =>
        if m.id == j then { m with note := some note } else m }

/-- The POST branch of the `issue` route (`app.py:494-516`): require `qty > 0`, look the
item up (404 when missing), run `fifo_issue`, and — only when the full quantity was
issued — store the note on the most recent issue movement. Returns the new state, the
issued quantity and the shortfall `qty - issued` (reported by the warning flash). -/
def issue (db : DB) (item_id : Nat) (qty : Int) (note : String) (now : Nat) :
    Except IssueError (DB × Int × Int) :=
  if qty ≤ 0 then .error .invalidQty
  else
    match findItem db item_id with
    | none => .error .notFound
    | some item =>
      if (fifo_issue db item qty now).2 < qty then
        .ok ((fifo_issue db item qty now).1, (fifo_issue db item qty now).2,
          qty - (fifo_issue db item qty now).2)
      else
        .ok (setNoteOnLastIssue (fifo_issue db item qty now).1 item.id note,
          (fifo_issue db item qty now).2, qty - (fifo_issue db item qty now).2)

/-- The fields of `item_summary_row` computed by the stock core; the dash shown for a
missing value is modelled as `none` and timestamps are left unformatted. -/
structure SummaryRow where
  remain : Int
  next_expiry : Option Nat
  last_receive : Option Nat
  last_issue : Option Nat
deriving DecidableEq

/-- The function `item_summary_row` of `app.py:181-215`: the remaining balance is the
sum of `qty_remaining` over all the item's batches; the next expiry is the smallest
expiry among batches with stock left and a non-null expiry; the last receive and issue
are the greatest movement timestamps of each kind. -/
def item_summary_row (db : DB) (itemId : Nat) : SummaryRow :=
  { remain := ((db.batches.filter fun b => b.item_id == itemId).map
      (·.qty_remaining)).sum
    next_expiry := ((db.batches.filter fun b =>
        b.item_id == itemId && decide (0 < b.qty_remaining)
          && b.expiry_date.isSome).filterMap (·.expiry_date)).min?
    last_receive := ((db.movements.filter fun m =>
        m.item_id == itemId && m.type == "receive").map (·.timestamp)).max?
    last_issue := ((db.movements.filter fun m =>
        m.item_id == itemId && m.type == "issue").map (·.timestamp)).max? }

/-- Failure outcomes of the `item_delete` route: `get_or_404` on an unknown item, or the
admin-only rejection (which deletes nothing). -/
inductive DelError
  | notFound
  | forbidden
deriving DecidableEq

/-- The route `item_delete` of `app.py:451-465`: 404 for an unknown item; a non-admin is
rejected without any deletion; otherwise the item's movements, the item's batches and
the item row itself are deleted in one commit. -/
def item_delete (db : DB) (itemId : Nat) (isAdmin : Bool) : Except DelError DB :=
  match findItem db itemId with
  | none => .error .notFound
  | some _ =>
    if isAdmin then
      .ok { db with
        movements := db.movements.filter fun m => !(m.item_id == itemId),
        batches := db.batches.filter fun b => !(b.item_id == itemId),
        items := db.items.filter fun it => !(it.id == itemId) }
    else .error .forbidden

/-- Case-insensitive substring test, the meaning of `column ILIKE '%kw%'` for a
wildcard-free keyword: `containsSub needle hay` holds when `needle` occurs contiguously
in `hay`. -/
def containsSub (needle : List Char) : List Char → Bool
  | [] => needle.isEmpty
  | c :: t => needle.isPrefixOf (c :: t) || containsSub needle t

/-- Case-folded substring match used by the keyword filter of the `movements` route
(the case folding maps `Char.toLower` over the characters, which is what
`String.toLower` does, stated over the character lists so it evaluates). -/
def textHit (kw s : String) : Bool :=
  containsSub (kw.data.map Char.toLower) (s.data.map Char.toLower)

/-- The parsed query-string filters of the `movements` route: `t` is the raw `type`
parameter (`"all"`, `"receive"`, `"issue"` or anything else); `startB` and `endB` are
the parsed time bounds, `none` when the field was empty or `strptime` failed (in which
case the route skips that filter), and `endB` already contains the `+ 1 day` the route
adds to the end date; `keyword` is the stripped search text, `""` meaning no filter. -/
structure MovFilter where
  t : String
  startB : Option Nat
  endB : Option Nat
  keyword : String

/-- The WHERE clause built by the `movements` route (`app.py:374-391`), including the
inner `join(Item)`: type equality when a concrete type was requested, the two time
bounds, and the case-insensitive keyword search over item name or note. -/
def movMatch (db : DB) (f : MovFilter) (m : StockMovement) : Bool :=
  (findItem db m.item_id).isSome
    && (if f.t == "receive" || f.t == "issue" then m.type == f.t else true)
    && (match f.startB with | some s => decide (s ≤ m.timestamp) | none => true)
    && (match f.endB with | some e => decide (m.timestamp < e) | none => true)
    && (if f.keyword == "" then true
        else textHit f.keyword (((findItem db m.item_id).map Item.name).getD "")
          || textHit f.keyword (m.note.getD ""))

/-- Descending-timestamp order of `order_by(StockMovement.timestamp.desc())`. -/
def tsGE (a b : StockMovement) : Prop := b.timestamp ≤ a.timestamp

instance : DecidableRel tsGE := fun a b => by
  unfold tsGE; infer_instance

instance : IsTotal StockMovement tsGE := by
  constructor
  intro a b
  unfold tsGE
  omega

instance : IsTrans StockMovement tsGE := by
  constructor
  intro a b c hab hbc
  unfold tsGE at *
  omega

/-- The query of the `movements` route (`app.py:365-397`): filter the movement rows,
then sort newest first (a stable sort of the rows in primary-key order). -/
def movements_query (db : DB) (f : MovFilter) : List StockMovement :=
  List.insertionSort tsGE (db.movements.filter (movMatch db f))

/-- One mutating stock request: the POST bodies accepted by the `receive` and `issue`
routes. -/
inductive Op
  | recv (item_id : Nat) (qty : Int) (expiry : ExpiryInput) (note : String) (now : Nat)
  | iss (item_id : Nat) (qty : Int) (note : String) (now : Nat)

/-- Apply one request to the database; a request that fails validation performs no
write and leaves the state unchanged. -/
def step (db : DB) : Op → DB
  | .recv i q e n t =>
    match receive db i q e n t with
    | .ok r => r.1
    | .error _ => db
  | .iss i q n t =>
    match issue db i q n t with
    | .ok r => r.1
    | .error _ => db

/-- Run a sequence of requests. -/
def run (db : DB) (ops : List Op) : DB := ops.foldl step db

/-- A fresh database holding only the given item rows. -/
def initDB (items : List Item) : DB :=
  { items := items, batches := [], movements := [], nextBatchId := 0, nextMovId := 0 }

/-- An item's current balance: the sum of `qty_remaining` over its batches (the
`total_remain` aggregate of `item_summary_row`). -/
def balance (db : DB) (itemId : Nat) : Int :=
  ((db.batches.filter fun b => b.item_id == itemId).map (·.qty_remaining)).sum

/-- Total quantity ever received for an item, read off the movement log. -/
def receivedSum (db : DB) (itemId : Nat) : Int :=
  ((db.movements.filter fun m => m.item_id == itemId && m.type == "receive").map
    (·.quantity)).sum

/-- Total quantity ever issued for an item, read off the movement log. -/
def issuedSum (db : DB) (itemId : Nat) : Int :=
  ((db.movements.filter fun m => m.item_id == itemId && m.type == "issue").map
    (·.quantity)).sum

/-- Per-batch bounds: the remaining quantity stays between 0 and the received one. -/
def BatchOK (b : StockBatch) : Prop :=
  0 ≤ b.qty_remaining ∧ b.qty_remaining ≤ b.qty_received

instance (b : StockBatch) : Decidable (BatchOK b) := by
  unfold BatchOK; infer_instance

/-- Structural well-formedness of a database: distinct batch primary keys, every id
below its autoincrement counter, and every batch within its received bounds. -/
def WF (db : DB) : Prop :=
  (db.batches.map (·.id)).Nodup
    ∧ (∀ b ∈ db.batches, b.id < db.nextBatchId ∧ BatchOK b)
    ∧ (∀ m ∈ db.movements, m.id < db.nextMovId)

instance (db : DB) : Decidable (WF db) := by
  unfold WF; infer_instance

/-- The ledger invariant: well-formed state whose balances agree with the committed
movement log for every item. -/
def Inv (db : DB) : Prop :=
  WF db ∧ ∀ i, balance db i = receivedSum db i - issuedSum db i

/-! ### Facts about the allocation loop -/

theorem fifoLoop_cons (b : StockBatch) (rest : List StockBatch) (q : Int) :
    fifoLoop (b :: rest) q =
      if q ≤ 0 then ([], q)
      else
        ((b, min b.qty_remaining q) ::
            (fifoLoop rest (q - min b.qty_remaining q)).1,
          (fifoLoop rest (q - min b.qty_remaining q)).2) := rfl

/-- The sum of the recorded takes is exactly the issued quantity `q - remain`. -/
theorem fifoLoop_sum (lots : List StockBatch) (q : Int) :
    ((fifoLoop lots q).1.map (·.2)).sum = q - (fifoLoop lots q).2 := by
  induction lots generalizing q with
  | nil => simp [fifoLoop]
  | cons b rest ih =>
    rw [fifoLoop_cons]
    split
    · simp
    · simp only [List.map_cons, List.sum_cons]
      rw [ih]
      ring

/-- The debited batches are an initial segment of the walked sequence, in order. -/
theorem fifoLoop_fst (lots : List StockBatch) (q : Int) :
    (fifoLoop lots q).1.map Prod.fst = lots.take (fifoLoop lots q).1.length := by
  induction lots generalizing q with
  | nil => simp [fifoLoop]
  | cons b rest ih =>
    rw [fifoLoop_cons]
    split
    · simp
    · simp only [List.map_cons, List.length_cons, List.take_succ_cons]
      rw [ih]

/-- Every recorded debit concerns a walked batch, never exceeds its remaining quantity,
and is positive as soon as the batch had stock (the loop breaks before recording a
take once `remain ≤ 0`). -/
theorem fifoLoop_mem {lots : List StockBatch} {q : Int} {d : StockBatch × Int}
    (hd : d ∈ (fifoLoop lots q).1) :
    d.1 ∈ lots ∧ d.2 ≤ d.1.qty_remaining ∧ (0 < d.1.qty_remaining → 0 < d.2) := by
  induction lots generalizing q with
  | nil => simp [fifoLoop] at hd
  | cons b rest ih =>
    rw [fifoLoop_cons] at hd
    split at hd
    · simp at hd
    · rename_i hq
      rcases List.mem_cons.mp hd with rfl | hd
      · refine ⟨List.mem_cons_self b rest, min_le_left _ _, fun hb => ?_⟩
        exact lt_min hb (by omega)
      · obtain ⟨h1, h2, h3⟩ := ih hd
        exact ⟨List.mem_cons_of_mem b h1, h2, h3⟩

/-- The final `remain` never drops below zero. -/
theorem fifoLoop_remain_nonneg (lots : List StockBatch) (q : Int) (hq : 0 ≤ q) :
    0 ≤ (fifoLoop lots q).2 := by
  induction lots generalizing q with
  | nil => simpa [fifoLoop]
  | cons b rest ih =>
    rw [fifoLoop_cons]
    split
    · simpa
    · exact ih _ (by omega)

/-- The loop issues everything it can: the issued quantity is the minimum of the
request and the total stock walked (so it stops exactly when the request is filled or
the batches run out). -/
theorem fifoLoop_issued (lots : List StockBatch) (q : Int) (hq : 0 ≤ q)
    (h : ∀ b ∈ lots, 0 ≤ b.qty_remaining) :
    q - (fifoLoop lots q).2 = min q ((lots.map (·.qty_remaining)).sum) := by
  induction lots generalizing q with
  | nil =>
    simp only [fifoLoop, List.map_nil, List.sum_nil]
    omega
  | cons b rest ih =>
    have hb := h b (List.mem_cons_self b rest)
    have hrest : ∀ x ∈ rest, 0 ≤ x.qty_remaining :=
      fun x hx => h x (List.mem_cons_of_mem b hx)
    have hs : 0 ≤ (rest.map (·.qty_remaining)).sum :=
      List.sum_nonneg (by
        intro x hx
        obtain ⟨y, hy, rfl⟩ := List.mem_map.mp hx
        exact hrest y hy)
    rw [fifoLoop_cons]
    split
    · rename_i hq0
      simp only [List.map_cons, List.sum_cons]
      omega
    · rename_i hq0
      have ih2 := ih (q - min b.qty_remaining q) (by omega) hrest
      simp only [List.map_cons, List.sum_cons]
      omega

/-! ### Stability of a stable sort under key-class filters -/

/-- Inserting an element that matches a filter, when every other match sorts no earlier
than it, prepends it to the filtered list. -/
theorem filter_orderedInsert_pos {α : Type _} (r : α → α → Prop) [DecidableRel r]
    (p : α → Bool) (a : α) (ha : p a = true) (hp : ∀ b, p b = true → r a b)
    (l : List α) : (List.orderedInsert r a l).filter p = a :: l.filter p := by
  induction l with
  | nil => simp [List.orderedInsert, ha]
  | cons b l ih =>
    simp only [List.orderedInsert]
    split
    · simp [List.filter_cons, ha]
    · rename_i hr
      have hpb : p b = false := by
        cases hpb : p b
        · rfl
        · exact absurd (hp b hpb) hr
      simp [List.filter_cons, hpb, ih]

/-- Inserting an element the filter rejects leaves the filtered list unchanged. -/
theorem filter_orderedInsert_neg {α : Type _} (r : α → α → Prop) [DecidableRel r]
    (p : α → Bool) (a : α) (ha : p a = false) (l : List α) :
    (List.orderedInsert r a l).filter p = l.filter p := by
  induction l with
  | nil => simp [List.orderedInsert, ha]
  | cons b l ih =>
    simp only [List.orderedInsert]
    split
    · simp [List.filter_cons, ha]
    · simp [List.filter_cons, ih]

/-- Stability of insertion sort: the elements of any mutually-tied class (any two
matches of `p` are `r`-related both ways, as `hp` states for the pairs that matter)
come out of the sort in their original relative order. -/
theorem filter_insertionSort {α : Type _} (r : α → α → Prop) [DecidableRel r]
    (p : α → Bool) (hp : ∀ a b, p a = true → p b = true → r a b) (l : List α) :
    (List.insertionSort r l).filter p = l.filter p := by
  induction l with
  | nil => rfl
  | cons a l ih =>
    simp only [List.insertionSort]
    cases ha : p a
    · rw [filter_orderedInsert_neg r p a ha, ih, List.filter_cons_of_neg (by simp [ha])]
    · rw [filter_orderedInsert_pos r p a ha (fun b hb => hp a b ha hb), ih,
        List.filter_cons_of_pos (by simp [ha])]

/-! ### Facts about the active-batch query -/

theorem activeLotsFor_perm (db : DB) (i : Nat) :
    (activeLotsFor db i).Perm (db.batches.filter (activeFilter i)) :=
  List.perm_insertionSort _ _

theorem activeLotsFor_sorted (db : DB) (i : Nat) :
    List.Sorted lotLE (activeLotsFor db i) :=
  List.sorted_insertionSort _ _

theorem mem_activeLotsFor {db : DB} {i : Nat} {b : StockBatch} :
    b ∈ activeLotsFor db i ↔ b ∈ db.batches ∧ b.item_id = i ∧ 0 < b.qty_remaining := by
  rw [(activeLotsFor_perm db i).mem_iff, List.mem_filter]
  simp [activeFilter, and_assoc]

theorem activeLotsFor_ids_nodup {db : DB} (h : (db.batches.map (·.id)).Nodup)
    (i : Nat) : ((activeLotsFor db i).map (·.id)).Nodup := by
  have hperm : ((activeLotsFor db i).map (·.id)).Perm
      ((db.batches.filter (activeFilter i)).map (·.id)) :=
    (activeLotsFor_perm db i).map _
  rw [hperm.nodup_iff]
  exact (((List.filter_sublist db.batches).map (·.id)).nodup h)

/-- The ids of the batches debited in one `fifo_issue` are distinct. -/
theorem fifoLoop_ids_nodup {lots : List StockBatch}
    (h : (lots.map (·.id)).Nodup) (q : Int) :
    ((fifoLoop lots q).1.map fun d => d.1.id).Nodup := by
  have : ((fifoLoop lots q).1.map fun d => d.1.id) =
      ((fifoLoop lots q).1.map Prod.fst).map (·.id) := by
    rw [List.map_map]
    rfl
  rw [this, fifoLoop_fst, List.map_take]
  exact (List.take_sublist _ _).nodup h

/-! ### Facts about applying debits to the stored batch rows -/

/-- Helper: a single debit applied to the batch table. -/
def applyOne (d : StockBatch × Int) (bs : List StockBatch) : List StockBatch :=
  bs.map fun b =>
    if d.1.id == b.id then { b with qty_remaining := b.qty_remaining - d.2 } else b

/-- Sum of the remaining quantities of one item over a list of batch rows. -/
def remSum (i : Nat) (bs : List StockBatch) : Int :=
  ((bs.filter fun b => b.item_id == i).map (·.qty_remaining)).sum

theorem balance_eq_remSum (db : DB) (i : Nat) : balance db i = remSum i db.batches := rfl

theorem applyDebits_nil (bs : List StockBatch) : applyDebits [] bs = bs := by
  simp [applyDebits]

/-- With pairwise-distinct debit ids, applying the debits factors into applying the
first one and then the rest. -/
theorem applyDebits_cons {d : StockBatch × Int} {ds : List (StockBatch × Int)}
    (bs : List StockBatch) (h : ∀ d' ∈ ds, d'.1.id ≠ d.1.id) :
    applyDebits (d :: ds) bs = applyDebits ds (applyOne d bs) := by
  unfold applyDebits applyOne
  rw [List.map_map]
  apply List.map_congr_left
  intro b _
  simp only [Function.comp]
  by_cases hid : d.1.id = b.id
  · have hb : (d.1.id == b.id) = true := by simp [hid]
    rw [List.find?_cons_of_pos (p := fun d' => d'.1.id == b.id) ds hb, if_pos hb]
    have hnone : (ds.find? fun d' => d'.1.id ==
        ({ b with qty_remaining := b.qty_remaining - d.2 } : StockBatch).id) = none := by
      rw [List.find?_eq_none]
      intro d' hd'
      simp only [beq_iff_eq]
      exact hid ▸ h d' hd'
    rw [hnone]
  · have hb : ¬ (d.1.id == b.id) = true := by simp [hid]
    rw [List.find?_cons_of_neg (p := fun d' => d'.1.id == b.id) ds hb, if_neg hb]

/-- A debit whose id matches no row leaves the table unchanged. -/
theorem applyOne_eq_self {d : StockBatch × Int} {bs : List StockBatch}
    (h : ∀ b ∈ bs, d.1.id ≠ b.id) : applyOne d bs = bs := by
  unfold applyOne
  conv_rhs => rw [show bs = bs.map id from (List.map_id bs).symm]
  apply List.map_congr_left
  intro b hb
  simp [h b hb]

theorem applyOne_map_id (d : StockBatch × Int) (bs : List StockBatch) :
    (applyOne d bs).map (·.id) = bs.map (·.id) := by
  unfold applyOne
  rw [List.map_map]
  apply List.map_congr_left
  intro b _
  simp only [Function.comp]
  split <;> rfl

theorem mem_applyOne_of_ne {d : StockBatch × Int} {b : StockBatch}
    {bs : List StockBatch} (h : b ∈ bs) (hne : d.1.id ≠ b.id) :
    b ∈ applyOne d bs := by
  have hmem := List.mem_map_of_mem
    (fun b => if d.1.id == b.id then { b with qty_remaining := b.qty_remaining - d.2 }
      else b) h
  simpa [applyOne, hne] using hmem

theorem remSum_cons (i : Nat) (b : StockBatch) (bs : List StockBatch) :
    remSum i (b :: bs) =
      (if b.item_id = i then b.qty_remaining else 0) + remSum i bs := by
  unfold remSum
  rw [List.filter_cons]
  by_cases h : b.item_id = i
  · simp [h]
  · simp [h]

theorem applyOne_cons (d : StockBatch × Int) (b : StockBatch) (bs : List StockBatch) :
    applyOne d (b :: bs) =
      (if d.1.id = b.id then { b with qty_remaining := b.qty_remaining - d.2 } else b)
        :: applyOne d bs := by
  unfold applyOne
  simp only [List.map_cons]
  by_cases h : d.1.id = b.id <;> simp [h]

/-- Accounting for one debit: the debited item's stored total drops by exactly the
take; other items' totals are untouched. -/
theorem remSum_applyOne {d : StockBatch × Int} {bs : List StockBatch}
    (hmem : d.1 ∈ bs) (hnd : (bs.map (·.id)).Nodup) (i : Nat) :
    remSum i (applyOne d bs) =
      remSum i bs - (if d.1.item_id = i then d.2 else 0) := by
  induction bs with
  | nil => simp at hmem
  | cons b bs ih =>
    obtain ⟨hbid, hnd2⟩ := List.nodup_cons.mp hnd
    rw [applyOne_cons]
    rcases List.mem_cons.mp hmem with heq | hmem2
    · have htail : applyOne d bs = bs := by
        apply applyOne_eq_self
        intro b' hb' hcontra
        apply hbid
        have hbb : b.id = b'.id := by rw [← heq]; exact hcontra
        show b.id ∈ List.map (fun x => x.id) bs
        rw [hbb]
        exact List.mem_map_of_mem (fun x => x.id) hb'
      rw [if_pos (by rw [heq]), htail, remSum_cons, remSum_cons]
      by_cases hitem : b.item_id = i
      · rw [if_pos hitem, if_pos hitem, if_pos (by rw [heq]; exact hitem)]
        show b.qty_remaining - d.2 + remSum i bs = b.qty_remaining + remSum i bs - d.2
        ring
      · rw [if_neg hitem, if_neg hitem, if_neg (by rw [heq]; exact hitem)]
        ring
    · have hne : d.1.id ≠ b.id := by
        intro hcontra
        apply hbid
        show b.id ∈ List.map (fun x => x.id) bs
        rw [← hcontra]
        exact List.mem_map_of_mem (fun x => x.id) hmem2
      rw [if_neg hne, remSum_cons, remSum_cons, ih hmem2 hnd2]
      ring

/-- Accounting for a batch of debits with distinct ids, all hitting stored rows. -/
theorem remSum_applyDebits {ds : List (StockBatch × Int)} {bs : List StockBatch}
    (hnd : (bs.map (·.id)).Nodup) (hmem : ∀ d ∈ ds, d.1 ∈ bs)
    (hd : (ds.map fun d => d.1.id).Nodup) (i : Nat) :
    remSum i (applyDebits ds bs) =
      remSum i bs - ((ds.filter fun d => d.1.item_id == i).map (·.2)).sum := by
  induction ds generalizing bs with
  | nil => simp [applyDebits_nil, remSum]
  | cons d ds ih =>
    have hd2 : (ds.map fun d => d.1.id).Nodup := (List.nodup_cons.mp hd).2
    have hdid : d.1.id ∉ ds.map fun d => d.1.id := (List.nodup_cons.mp hd).1
    have hne : ∀ d' ∈ ds, d'.1.id ≠ d.1.id := by
      intro d' hd' hcontra
      exact hdid (hcontra ▸ List.mem_map_of_mem (fun d => d.1.id) hd')
    rw [applyDebits_cons bs hne]
    have hmem1 : d.1 ∈ bs := hmem d (List.mem_cons_self d ds)
    have hmem2 : ∀ d' ∈ ds, d'.1 ∈ applyOne d bs := by
      intro d' hd'
      exact mem_applyOne_of_ne (hmem d' (List.mem_cons_of_mem d hd'))
        (fun hcontra => hne d' hd' hcontra.symm)
    have hnd2 : ((applyOne d bs).map (·.id)).Nodup := by
      rw [applyOne_map_id]; exact hnd
    rw [ih hnd2 hmem2 hd2, remSum_applyOne hmem1 hnd i, List.filter_cons]
    by_cases hitem : d.1.item_id = i
    · have hbeq : (d.1.item_id == i) = true := by simp [hitem]
      rw [if_pos hitem, if_pos hbeq]
      simp only [List.map_cons, List.sum_cons]
      ring
    · have hbeq : ¬ ((d.1.item_id == i) = true) := by simp [hitem]
      rw [if_neg hitem, if_neg hbeq]
      ring

/-- Shape of a row after the debits: same row except possibly a decremented remaining
quantity, recorded against a debit with the row's id. -/
theorem mem_applyDebits {ds : List (StockBatch × Int)} {bs : List StockBatch}
    {b' : StockBatch} (h : b' ∈ applyDebits ds bs) :
    ∃ b ∈ bs, b'.id = b.id ∧ b'.item_id = b.item_id ∧
      b'.qty_received = b.qty_received ∧ b'.received_at = b.received_at ∧
      b'.expiry_date = b.expiry_date ∧
      (b' = b ∨ ∃ d ∈ ds, d.1.id = b.id ∧
        b'.qty_remaining = b.qty_remaining - d.2) := by
  unfold applyDebits at h
  rcases List.mem_map.mp h with ⟨b, hb, rfl⟩
  refine ⟨b, hb, ?_⟩
  cases hf : (ds.find? fun d => d.1.id == b.id) with
  | none =>
    exact ⟨rfl, rfl, rfl, rfl, rfl, Or.inl rfl⟩
  | some d =>
    have hmem := List.mem_of_find?_eq_some hf
    have hp := List.find?_some hf
    simp only [beq_iff_eq] at hp
    exact ⟨rfl, rfl, rfl, rfl, rfl, Or.inr ⟨d, hmem, hp, rfl⟩⟩

/-- Conversely, every stored row survives the debits with its id (and all fields other
than the remaining quantity) intact. -/
theorem applyDebits_surj {ds : List (StockBatch × Int)} {bs : List StockBatch}
    {b : StockBatch} (h : b ∈ bs) :
    ∃ b' ∈ applyDebits ds bs, b'.id = b.id ∧ b'.item_id = b.item_id ∧
      b'.qty_received = b.qty_received := by
  unfold applyDebits
  refine ⟨_, List.mem_map_of_mem _ h, ?_⟩
  cases hf : (ds.find? fun d => d.1.id == b.id) with
  | none => simp [hf]
  | some d => simp [hf]

/-- Two rows of a table with distinct primary keys that share an id are the same row. -/
theorem eq_of_id_eq {bs : List StockBatch} (hnd : (bs.map (·.id)).Nodup)
    {a b : StockBatch} (ha : a ∈ bs) (hb : b ∈ bs) (h : a.id = b.id) : a = b :=
  List.inj_on_of_nodup_map hnd ha hb h

theorem applyDebits_map_id (ds : List (StockBatch × Int)) (bs : List StockBatch) :
    (applyDebits ds bs).map (·.id) = bs.map (·.id) := by
  unfold applyDebits
  rw [List.map_map]
  apply List.map_congr_left
  intro b _
  simp only [Function.comp]
  cases (ds.find? fun d => d.1.id == b.id) <;> rfl

/-! ### Facts about the issue movements appended by the loop -/

theorem debitMovements_length (i now s : Nat) (ds : List (StockBatch × Int)) :
    (debitMovements i now s ds).length = ds.length := by
  induction ds generalizing s with
  | nil => rfl
  | cons d ds ih => simp [debitMovements, ih]

theorem debitMovements_quantities (i now s : Nat) (ds : List (StockBatch × Int)) :
    (debitMovements i now s ds).map (·.quantity) = ds.map (·.2) := by
  induction ds generalizing s with
  | nil => rfl
  | cons d ds ih => simp [debitMovements, ih]

/-- Every movement appended by the loop carries the item, the kind `"issue"`, no note,
the call's timestamp, a fresh id in the allotted range, and one debit's take and batch
reference. -/
theorem mem_debitMovements {i now s : Nat} {ds : List (StockBatch × Int)}
    {m : StockMovement} (h : m ∈ debitMovements i now s ds) :
    m.item_id = i ∧ m.type = "issue" ∧ m.note = none ∧ m.timestamp = now ∧
      s ≤ m.id ∧ m.id < s + ds.length ∧
      ∃ d ∈ ds, m.quantity = d.2 ∧ m.batch_id = some d.1.id := by
  induction ds generalizing s with
  | nil => simp [debitMovements] at h
  | cons d ds ih =>
    rcases List.mem_cons.mp h with rfl | h2
    · refine ⟨rfl, rfl, rfl, rfl, Nat.le_refl _, by simp, d,
        List.mem_cons_self d ds, rfl, rfl⟩
    · obtain ⟨h1, h2', h3, h4, h5, h6, d', hd', h7, h8⟩ := ih h2
      refine ⟨h1, h2', h3, h4, by omega, by simp only [List.length_cons]; omega,
        d', List.mem_cons_of_mem d hd', h7, h8⟩

/-! ### Facts about one whole `fifo_issue` call -/

/-- Every debit recorded against an item's active batches hits a stored batch of that
item, is positive, and stays within the batch's remaining stock. -/
theorem fifo_issue_debits {db : DB} {i : Nat} {q : Int} {d : StockBatch × Int}
    (hd : d ∈ (fifoLoop (activeLotsFor db i) q).1) :
    d.1 ∈ db.batches ∧ d.1.item_id = i ∧ 0 < d.2 ∧ d.2 ≤ d.1.qty_remaining := by
  obtain ⟨h1, h2, h3⟩ := fifoLoop_mem hd
  obtain ⟨hb, hi, hpos⟩ := mem_activeLotsFor.mp h1
  exact ⟨hb, hi, h3 hpos, h2⟩

theorem fifo_issue_ids_nodup {db : DB} (h : (db.batches.map (·.id)).Nodup)
    (i : Nat) (q : Int) :
    ((fifoLoop (activeLotsFor db i) q).1.map fun d => d.1.id).Nodup :=
  fifoLoop_ids_nodup (activeLotsFor_ids_nodup h i) q

/-- Balance accounting of one `fifo_issue`: the issued item's balance drops by the
issued quantity; every other item's balance is untouched. -/
theorem balance_fifo_issue {db : DB} (hnd : (db.batches.map (·.id)).Nodup)
    (item : Item) (q : Int) (now : Nat) (j : Nat) :
    balance (fifo_issue db item q now).1 j =
      balance db j - (if j = item.id then (fifo_issue db item q now).2 else 0) := by
  have hmem : ∀ d ∈ (fifoLoop (activeLotsFor db item.id) q).1, d.1 ∈ db.batches :=
    fun d hd => (fifo_issue_debits hd).1
  have heq : balance (fifo_issue db item q now).1 j =
      remSum j (applyDebits (fifoLoop (activeLotsFor db item.id) q).1 db.batches) := rfl
  rw [heq, remSum_applyDebits hnd hmem (fifo_issue_ids_nodup hnd item.id q) j,
    balance_eq_remSum]
  by_cases hj : j = item.id
  · subst hj
    rw [List.filter_eq_self.mpr (fun d hd => by
      simp [(fifo_issue_debits hd).2.1])]
    rw [if_pos rfl]
    have : (fifo_issue db item q now).2 = q - (fifoLoop (activeLotsFor db item.id) q).2 :=
      rfl
    rw [this, ← fifoLoop_sum]
  · rw [List.filter_eq_nil_iff.mpr (fun d hd => by
      simp only [beq_iff_eq]
      rw [(fifo_issue_debits hd).2.1]
      exact fun hc => hj hc.symm)]
    rw [if_neg hj]
    simp

/-- Sum of receive-movement quantities of one item over a movement list. -/
def recSumL (i : Nat) (ms : List StockMovement) : Int :=
  ((ms.filter fun m => m.item_id == i && m.type == "receive").map (·.quantity)).sum

/-- Sum of issue-movement quantities of one item over a movement list. -/
def issSumL (i : Nat) (ms : List StockMovement) : Int :=
  ((ms.filter fun m => m.item_id == i && m.type == "issue").map (·.quantity)).sum

theorem receivedSum_eq (db : DB) (i : Nat) : receivedSum db i = recSumL i db.movements :=
  rfl

theorem issuedSum_eq (db : DB) (i : Nat) : issuedSum db i = issSumL i db.movements :=
  rfl

theorem recSumL_append (i : Nat) (a b : List StockMovement) :
    recSumL i (a ++ b) = recSumL i a + recSumL i b := by
  unfold recSumL
  rw [List.filter_append, List.map_append, List.sum_append]

theorem issSumL_append (i : Nat) (a b : List StockMovement) :
    issSumL i (a ++ b) = issSumL i a + issSumL i b := by
  unfold issSumL
  rw [List.filter_append, List.map_append, List.sum_append]

theorem recSumL_debitMovements (j i now s : Nat) (ds : List (StockBatch × Int)) :
    recSumL j (debitMovements i now s ds) = 0 := by
  unfold recSumL
  rw [List.filter_eq_nil_iff.mpr (fun m hm => by
    have := (mem_debitMovements hm).2.1
    simp [this])]
  rfl

theorem issSumL_debitMovements (j i now s : Nat) (ds : List (StockBatch × Int)) :
    issSumL j (debitMovements i now s ds) =
      if j = i then (ds.map (·.2)).sum else 0 := by
  unfold issSumL
  by_cases hj : j = i
  · subst hj
    rw [List.filter_eq_self.mpr (fun m hm => by
      obtain ⟨h1, h2, _⟩ := mem_debitMovements hm
      simp [h1, h2])]
    rw [debitMovements_quantities, if_pos rfl]
  · rw [List.filter_eq_nil_iff.mpr (fun m hm => by
      have := (mem_debitMovements hm).1
      simp only [Bool.and_eq_true, beq_iff_eq, not_and]
      intro hc
      exact absurd (this ▸ hc) (fun hc2 => hj hc2.symm))]
    rw [if_neg hj]
    rfl

/-! ### The note fix-up only rewrites one note -/

theorem setNote_batches (db : DB) (i : Nat) (note : String) :
    (setNoteOnLastIssue db i note).batches = db.batches := by
  unfold setNoteOnLastIssue
  split <;> rfl

theorem setNote_items (db : DB) (i : Nat) (note : String) :
    (setNoteOnLastIssue db i note).items = db.items := by
  unfold setNoteOnLastIssue
  split <;> rfl

theorem setNote_counters (db : DB) (i : Nat) (note : String) :
    (setNoteOnLastIssue db i note).nextBatchId = db.nextBatchId ∧
      (setNoteOnLastIssue db i note).nextMovId = db.nextMovId := by
  unfold setNoteOnLastIssue
  split <;> exact ⟨rfl, rfl⟩

theorem balance_setNote (db : DB) (i : Nat) (note : String) (j : Nat) :
    balance (setNoteOnLastIssue db i note) j = balance db j := by
  unfold balance
  rw [setNote_batches]

/-- A note rewrite keeps any filtered quantity sum unchanged (the filters only read
fields the rewrite preserves). -/
theorem sum_filter_note {p : StockMovement → Bool} (f : StockMovement → StockMovement)
    (hp : ∀ m, p (f m) = p m) (hq : ∀ m, (f m).quantity = m.quantity)
    (ms : List StockMovement) :
    (((ms.map f).filter p).map (·.quantity)).sum = ((ms.filter p).map (·.quantity)).sum := by
  induction ms with
  | nil => rfl
  | cons m ms ih =>
    simp only [List.map_cons, List.filter_cons, hp m]
    by_cases hpm : p m = true
    · rw [if_pos hpm, if_pos hpm]
      simp only [List.map_cons, List.sum_cons, hq m, ih]
    · rw [if_neg hpm, if_neg hpm]
      exact ih

theorem receivedSum_setNote (db : DB) (i : Nat) (note : String) (j : Nat) :
    receivedSum (setNoteOnLastIssue db i note) j = receivedSum db j := by
  unfold setNoteOnLastIssue
  split
  · rfl
  · rw [receivedSum_eq, receivedSum_eq]
    show recSumL j (db.movements.map _) = recSumL j db.movements
    unfold recSumL
    apply sum_filter_note
    · intro m
      split <;> rfl
    · intro m
      split <;> rfl

theorem issuedSum_setNote (db : DB) (i : Nat) (note : String) (j : Nat) :
    issuedSum (setNoteOnLastIssue db i note) j = issuedSum db j := by
  unfold setNoteOnLastIssue
  split
  · rfl
  · rw [issuedSum_eq, issuedSum_eq]
    show issSumL j (db.movements.map _) = issSumL j db.movements
    unfold issSumL
    apply sum_filter_note
    · intro m
      split <;> rfl
    · intro m
      split <;> rfl

theorem setNote_mov_ids (db : DB) (i : Nat) (note : String) :
    (setNoteOnLastIssue db i note).movements.map (·.id) = db.movements.map (·.id) := by
  unfold setNoteOnLastIssue
  split
  · rfl
  · rename_i j hj
    show ((db.movements.map fun m =>
        if m.id == j then { m with note := some note } else m).map (·.id)) =
      db.movements.map (·.id)
    rw [List.map_map]
    apply List.map_congr_left
    intro m _
    simp only [Function.comp]
    split <;> rfl

/-! ### Case analysis of the two routes -/

/-- Characterization of a successful receive: the quantity was positive, the expiry
parsed, and exactly one batch plus one receive movement were appended. -/
theorem receive_ok {db : DB} {item_id : Nat} {qty : Int} {expiry : ExpiryInput}
    {note : String} {now : Nat} {db' : DB} {batch : StockBatch}
    (h : receive db item_id qty expiry note now = .ok (db', batch)) :
    0 < qty ∧ ∃ exp : Option Nat, parseExpiry expiry = .ok exp ∧
      batch = ({ id := db.nextBatchId, item_id := item_id, qty_received := qty,
                 qty_remaining := qty, expiry_date := exp, received_at := now } :
                StockBatch) ∧
      db' = ({ db with
               batches := db.batches ++ [batch],
               movements := db.movements ++
                 [({ id := db.nextMovId, item_id := item_id, type := "receive",
                     quantity := qty, timestamp := now, note := some note,
                     batch_id := some batch.id } : StockMovement)],
               nextBatchId := db.nextBatchId + 1,
               nextMovId := db.nextMovId + 1 } : DB) := by
  unfold receive at h
  split at h
  · exact absurd h (by simp)
  · rename_i hq
    split at h
    · exact absurd h (by simp)
    · rename_i exp hexp
      simp only [Except.ok.injEq, Prod.mk.injEq] at h
      obtain ⟨h1, h2⟩ := h
      subst h2
      subst h1
      exact ⟨by omega, exp, hexp, rfl, rfl⟩

/-- Characterization of a successful issue: the quantity was positive, the item exists,
and the result state is the committed `fifo_issue` state, with the note fix-up applied
exactly when there was no shortfall. -/
theorem issue_ok {db : DB} {item_id : Nat} {qty : Int} {note : String} {now : Nat}
    {db' : DB} {issued short : Int}
    (h : issue db item_id qty note now = .ok (db', issued, short)) :
    0 < qty ∧ ∃ item, findItem db item_id = some item ∧
      issued = (fifo_issue db item qty now).2 ∧ short = qty - issued ∧
      ((issued < qty ∧ db' = (fifo_issue db item qty now).1) ∨
        (issued = qty ∧
          db' = setNoteOnLastIssue (fifo_issue db item qty now).1 item.id note)) := by
  unfold issue at h
  split at h
  · exact absurd h (by simp)
  · rename_i hq
    split at h
    · exact absurd h (by simp)
    · rename_i item hitem
      refine ⟨by omega, item, hitem, ?_⟩
      have hrem : 0 ≤ (fifoLoop (activeLotsFor db item.id) qty).2 :=
        fifoLoop_remain_nonneg _ _ (by omega)
      have hle : (fifo_issue db item qty now).2 ≤ qty := by
        show qty - (fifoLoop (activeLotsFor db item.id) qty).2 ≤ qty
        omega
      split at h
      · rename_i hlt
        simp only [Except.ok.injEq, Prod.mk.injEq] at h
        obtain ⟨h1, h2, h3⟩ := h
        exact ⟨h2.symm, by omega, Or.inl ⟨by omega, h1.symm⟩⟩
      · rename_i hge
        simp only [Except.ok.injEq, Prod.mk.injEq] at h
        obtain ⟨h1, h2, h3⟩ := h
        refine ⟨h2.symm, by omega, Or.inr ⟨by omega, h1.symm⟩⟩

/-! ### Preservation of the ledger invariant -/

theorem balance_nonneg {db : DB} (h : WF db) (i : Nat) : 0 ≤ balance db i := by
  unfold balance
  apply List.sum_nonneg
  intro x hx
  obtain ⟨b, hb, rfl⟩ := List.mem_map.mp hx
  exact ((h.2.1 b (List.mem_filter.mp hb).1).2).1

/-- Balance and log accounting of a successful receive. -/
theorem receive_balance {db : DB} {item_id : Nat} {qty : Int} {expiry : ExpiryInput}
    {note : String} {now : Nat} {db' : DB} {batch : StockBatch}
    (h : receive db item_id qty expiry note now = .ok (db', batch)) (j : Nat) :
    balance db' j = balance db j + (if item_id = j then qty else 0) ∧
      receivedSum db' j = receivedSum db j + (if item_id = j then qty else 0) ∧
      issuedSum db' j = issuedSum db j := by
  obtain ⟨hq, exp, hexp, hbatch, hdb⟩ := receive_ok h
  subst hdb
  subst hbatch
  refine ⟨?_, ?_, ?_⟩
  · unfold balance
    simp only [List.filter_append, List.map_append, List.sum_append]
    by_cases hj : item_id = j <;> simp [List.filter_cons, hj]
  · unfold receivedSum
    simp only [List.filter_append, List.map_append, List.sum_append]
    by_cases hj : item_id = j <;> simp [List.filter_cons, hj]
  · unfold issuedSum
    simp only [List.filter_append, List.map_append, List.sum_append]
    simp

theorem WF_receive_ok {db : DB} {item_id : Nat} {qty : Int} {expiry : ExpiryInput}
    {note : String} {now : Nat} {db' : DB} {batch : StockBatch} (hWF : WF db)
    (h : receive db item_id qty expiry note now = .ok (db', batch)) : WF db' := by
  obtain ⟨hq, exp, hexp, hbatch, hdb⟩ := receive_ok h
  subst hdb
  subst hbatch
  obtain ⟨hnd, hb, hm⟩ := hWF
  unfold WF
  refine ⟨?_, ?_, ?_⟩
  · rw [List.map_append, List.nodup_append]
    refine ⟨hnd, List.nodup_singleton _, ?_⟩
    intro x hx
    obtain ⟨b, hbm, rfl⟩ := List.mem_map.mp hx
    have hlt := (hb b hbm).1
    simp only [List.map_cons, List.map_nil, List.mem_singleton]
    show ¬ b.id = db.nextBatchId
    omega
  · intro b hbm
    rcases List.mem_append.mp hbm with h1 | h1
    · obtain ⟨h2, h3⟩ := hb b h1
      refine ⟨?_, h3⟩
      show b.id < db.nextBatchId + 1
      omega
    · rw [List.mem_singleton] at h1
      subst h1
      refine ⟨?_, ?_⟩
      · show db.nextBatchId < db.nextBatchId + 1
        omega
      · show (0 : Int) ≤ qty ∧ qty ≤ qty
        omega
  · intro m hmm
    rcases List.mem_append.mp hmm with h1 | h1
    · have := hm m h1
      show m.id < db.nextMovId + 1
      omega
    · rw [List.mem_singleton] at h1
      subst h1
      show db.nextMovId < db.nextMovId + 1
      omega

theorem WF_fifo_issue {db : DB} (h : WF db) (item : Item) (q : Int) (now : Nat) :
    WF (fifo_issue db item q now).1 := by
  obtain ⟨hnd, hb, hm⟩ := h
  refine ⟨?_, ?_, ?_⟩
  · show ((applyDebits _ db.batches).map (·.id)).Nodup
    rw [applyDebits_map_id]
    exact hnd
  · intro b' hb'
    obtain ⟨b, hbmem, hid, _, hrecv, _, _, hcase⟩ := mem_applyDebits hb'
    obtain ⟨hlt, hok⟩ := hb b hbmem
    refine ⟨by rw [hid]; exact hlt, ?_⟩
    rcases hcase with rfl | ⟨d, hd, hdid, hrem⟩
    · exact hok
    · have hdf := fifo_issue_debits hd
      have hdb : d.1 = b := eq_of_id_eq hnd hdf.1 hbmem hdid
      obtain ⟨h0, h1⟩ := hok
      have htake : d.2 ≤ b.qty_remaining := by rw [← hdb]; exact hdf.2.2.2
      have hpos : 0 < d.2 := hdf.2.2.1
      constructor
      · rw [hrem]; omega
      · rw [hrem, hrecv]; omega
  · intro m hmm
    show m.id < db.nextMovId + _
    rcases List.mem_append.mp hmm with h1 | h1
    · have := hm m h1
      omega
    · exact (mem_debitMovements h1).2.2.2.2.2.1

theorem WF_setNote {db : DB} (h : WF db) (i : Nat) (note : String) :
    WF (setNoteOnLastIssue db i note) := by
  obtain ⟨hnd, hb, hm⟩ := h
  unfold setNoteOnLastIssue
  split
  · exact ⟨hnd, hb, hm⟩
  · refine ⟨hnd, hb, ?_⟩
    intro m hmm
    obtain ⟨m0, hm0, rfl⟩ := List.mem_map.mp hmm
    have := hm m0 hm0
    split <;> exact this

theorem issuedSum_fifo_issue (db : DB) (item : Item) (q : Int) (now : Nat) (j : Nat) :
    issuedSum (fifo_issue db item q now).1 j =
      issuedSum db j + (if j = item.id then (fifo_issue db item q now).2 else 0) := by
  rw [issuedSum_eq, issuedSum_eq]
  show issSumL j (db.movements ++
    debitMovements item.id now db.nextMovId (fifoLoop (activeLotsFor db item.id) q).1) = _
  rw [issSumL_append, issSumL_debitMovements, fifoLoop_sum]
  rfl

theorem receivedSum_fifo_issue (db : DB) (item : Item) (q : Int) (now : Nat) (j : Nat) :
    receivedSum (fifo_issue db item q now).1 j = receivedSum db j := by
  rw [receivedSum_eq, receivedSum_eq]
  show recSumL j (db.movements ++
    debitMovements item.id now db.nextMovId (fifoLoop (activeLotsFor db item.id) q).1) = _
  rw [recSumL_append, recSumL_debitMovements]
  ring

theorem WF_issue_ok {db : DB} {item_id : Nat} {qty : Int} {note : String} {now : Nat}
    {db' : DB} {issued short : Int} (hWF : WF db)
    (h : issue db item_id qty note now = .ok (db', issued, short)) : WF db' := by
  obtain ⟨hq, item, hitem, hiss, hshort, hcase⟩ := issue_ok h
  rcases hcase with ⟨_, rfl⟩ | ⟨_, rfl⟩
  · exact WF_fifo_issue hWF item qty now
  · exact WF_setNote (WF_fifo_issue hWF item qty now) item.id note

/-- Balance and log accounting of a successful issue. -/
theorem issue_balance {db : DB} {item_id : Nat} {qty : Int} {note : String} {now : Nat}
    {db' : DB} {issued short : Int} (hWF : WF db)
    (h : issue db item_id qty note now = .ok (db', issued, short)) (j : Nat) :
    ∃ item, findItem db item_id = some item ∧
      balance db' j = balance db j - (if j = item.id then issued else 0) ∧
      issuedSum db' j = issuedSum db j + (if j = item.id then issued else 0) ∧
      receivedSum db' j = receivedSum db j := by
  obtain ⟨hq, item, hitem, hiss, hshort, hcase⟩ := issue_ok h
  refine ⟨item, hitem, ?_⟩
  rcases hcase with ⟨_, rfl⟩ | ⟨_, rfl⟩
  · rw [balance_fifo_issue hWF.1 item qty now j, issuedSum_fifo_issue,
      receivedSum_fifo_issue, ← hiss]
    exact ⟨rfl, rfl, rfl⟩
  · rw [balance_setNote, issuedSum_setNote, receivedSum_setNote,
      balance_fifo_issue hWF.1 item qty now j, issuedSum_fifo_issue,
      receivedSum_fifo_issue, ← hiss]
    exact ⟨rfl, rfl, rfl⟩

theorem Inv_step {db : DB} (h : Inv db) (op : Op) : Inv (step db op) := by
  obtain ⟨hWF, hbal⟩ := h
  cases op with
  | recv i q e n t =>
    simp only [step]
    cases hrec : receive db i q e n t with
    | error err => exact ⟨hWF, hbal⟩
    | ok r =>
      obtain ⟨db', batch⟩ := r
      refine ⟨WF_receive_ok hWF hrec, ?_⟩
      intro j
      obtain ⟨hb1, hb2, hb3⟩ := receive_balance hrec j
      rw [hb1, hb2, hb3, hbal j]
      ring
  | iss i q n t =>
    simp only [step]
    cases hiss : issue db i q n t with
    | error err => exact ⟨hWF, hbal⟩
    | ok r =>
      obtain ⟨db', issued, short⟩ := r
      refine ⟨WF_issue_ok hWF hiss, ?_⟩
      intro j
      obtain ⟨item, hitem, hb1, hb2, hb3⟩ := issue_balance hWF hiss j
      rw [hb1, hb2, hb3, hbal j]
      ring

theorem Inv_run {db : DB} (h : Inv db) (ops : List Op) : Inv (run db ops) := by
  induction ops generalizing db with
  | nil => exact h
  | cons op ops ih => exact ih (Inv_step h op)

theorem Inv_initDB (items : List Item) : Inv (initDB items) := by
  refine ⟨⟨List.nodup_nil, ?_, ?_⟩, ?_⟩ <;> simp [initDB, balance, receivedSum, issuedSum]

/-- Per-batch monotonicity across one `fifo_issue`: a surviving row's remaining
quantity never grows and its received quantity never changes. -/
theorem fifo_issue_mono {db : DB} (hWF : WF db) (item : Item) (q : Int) (now : Nat)
    {b' b : StockBatch} (hb' : b' ∈ (fifo_issue db item q now).1.batches)
    (hb : b ∈ db.batches) (hid : b'.id = b.id) :
    b'.qty_remaining ≤ b.qty_remaining ∧ b'.qty_received = b.qty_received := by
  obtain ⟨b0, hb0, hid0, _, hrecv0, _, _, hcase⟩ := mem_applyDebits hb'
  have hbb : b0 = b := eq_of_id_eq hWF.1 hb0 hb (by rw [← hid0]; exact hid)
  subst hbb
  rcases hcase with rfl | ⟨d, hd, hdid, hrem⟩
  · exact ⟨le_refl _, rfl⟩
  · have hdf := fifo_issue_debits hd
    have hpos : 0 < d.2 := hdf.2.2.1
    exact ⟨by rw [hrem]; omega, hrecv0⟩

/-- Per-batch monotonicity across any single request. -/
theorem step_mono {db : DB} (hWF : WF db) (op : Op) {b' b : StockBatch}
    (hb' : b' ∈ (step db op).batches) (hb : b ∈ db.batches) (hid : b'.id = b.id) :
    b'.qty_remaining ≤ b.qty_remaining ∧ b'.qty_received = b.qty_received := by
  cases op with
  | recv i q e n t =>
    simp only [step] at hb'
    split at hb'
    · rename_i r hrec
      obtain ⟨db2, batch⟩ := r
      obtain ⟨hq, exp, hexp, hbatch, hdb⟩ := receive_ok hrec
      subst hdb
      rcases List.mem_append.mp hb' with h1 | h1
      · have : b' = b := eq_of_id_eq hWF.1 h1 hb hid
        rw [this]
        exact ⟨le_refl _, rfl⟩
      · rw [List.mem_singleton] at h1
        subst h1
        subst hbatch
        have := (hWF.2.1 b hb).1
        exact absurd hid (by simp; omega)
    · have : b' = b := eq_of_id_eq hWF.1 hb' hb hid
      rw [this]
      exact ⟨le_refl _, rfl⟩
  | iss i q n t =>
    simp only [step] at hb'
    split at hb'
    · rename_i r hiss
      obtain ⟨db2, issued, short⟩ := r
      obtain ⟨hq, item, hitem, hi2, hs2, hcase⟩ := issue_ok hiss
      rcases hcase with ⟨_, rfl⟩ | ⟨_, rfl⟩
      · exact fifo_issue_mono hWF item q t hb' hb hid
      · rw [setNote_batches] at hb'
        exact fifo_issue_mono hWF item q t hb' hb hid
    · have : b' = b := eq_of_id_eq hWF.1 hb' hb hid
      rw [this]
      exact ⟨le_refl _, rfl⟩

/-! ### Assorted helper facts -/

theorem findItem_id {db : DB} {i : Nat} {item : Item}
    (h : findItem db i = some item) : item.id = i := by
  have := List.find?_some h
  simpa using this

theorem nat_max?_eq_some {l : List Nat} {a : Nat} :
    l.max? = some a ↔ a ∈ l ∧ ∀ b ∈ l, b ≤ a := by
  haveI : Std.Antisymm (fun x y : Nat => x ≤ y) := ⟨fun h h2 => Nat.le_antisymm h h2⟩
  exact List.max?_eq_some_iff (fun a => Nat.le_refl a) (fun a b => by omega)
    (fun a b c => by omega)

theorem nat_min?_eq_some {l : List Nat} {a : Nat} :
    l.min? = some a ↔ a ∈ l ∧ ∀ b ∈ l, a ≤ b := by
  haveI : Std.Antisymm (fun x y : Nat => x ≤ y) := ⟨fun h h2 => Nat.le_antisymm h h2⟩
  exact List.min?_eq_some_iff (fun a => Nat.le_refl a) (fun a b => by omega)
    (fun a b c => by omega)

theorem sum_filter_active {bs : List StockBatch}
    (h : ∀ b ∈ bs, 0 ≤ b.qty_remaining) (i : Nat) :
    ((bs.filter (activeFilter i)).map (·.qty_remaining)).sum =
      ((bs.filter fun b => b.item_id == i).map (·.qty_remaining)).sum := by
  induction bs with
  | nil => rfl
  | cons b bs ih =>
    have hb := h b (List.mem_cons_self b bs)
    have ih2 := ih (fun x hx => h x (List.mem_cons_of_mem b hx))
    rw [List.filter_cons, List.filter_cons]
    by_cases hbi : b.item_id = i
    · by_cases hrem : 0 < b.qty_remaining
      · rw [if_pos (by simp [activeFilter, hbi, hrem]), if_pos (by simp [hbi])]
        simp only [List.map_cons, List.sum_cons, ih2]
      · have h0 : b.qty_remaining = 0 := le_antisymm (not_lt.mp hrem) hb
        rw [if_neg (by simp [activeFilter, hbi, hrem]), if_pos (by simp [hbi])]
        simp only [List.map_cons, List.sum_cons, ih2, h0]
        ring
    · rw [if_neg (by simp [activeFilter, hbi]), if_neg (by simp [hbi])]
      exact ih2

/-- With no batch in deficit, the total walked by the allocator equals the stored
balance (fully-consumed batches are filtered out but contribute nothing anyway). -/
theorem activeSum_eq_balance {db : DB}
    (h : ∀ b ∈ db.batches, 0 ≤ b.qty_remaining) (i : Nat) :
    ((activeLotsFor db i).map (·.qty_remaining)).sum = balance db i := by
  have hperm : ((activeLotsFor db i).map (·.qty_remaining)).Perm
      ((db.batches.filter (activeFilter i)).map (·.qty_remaining)) :=
    (activeLotsFor_perm db i).map _
  rw [hperm.sum_eq]
  exact sum_filter_active h i

/-! ### Facts about the movements reporting query -/

theorem movements_query_perm (db : DB) (f : MovFilter) :
    (movements_query db f).Perm (db.movements.filter (movMatch db f)) :=
  List.perm_insertionSort _ _

theorem movements_query_sorted (db : DB) (f : MovFilter) :
    List.Sorted tsGE (movements_query db f) :=
  List.sorted_insertionSort _ _

theorem mem_movements_query {db : DB} {f : MovFilter} {m : StockMovement} :
    m ∈ movements_query db f ↔ m ∈ db.movements ∧ movMatch db f m = true := by
  rw [(movements_query_perm db f).mem_iff, List.mem_filter]

theorem movements_query_stable (db : DB) (f : MovFilter) (ts : Nat) :
    (movements_query db f).filter (fun m => m.timestamp == ts) =
      (db.movements.filter (movMatch db f)).filter (fun m => m.timestamp == ts) := by
  apply filter_insertionSort
  intro a b ha hb
  simp only [beq_iff_eq] at ha hb
  unfold tsGE
  omega

/-! ### The note fix-up hits exactly the last movement of a full issue -/

theorem debitMovements_last_id (i now : Nat) :
    ∀ (s : Nat) (ds : List (StockBatch × Int)), ds ≠ [] →
      ∃ m ∈ debitMovements i now s ds, m.id = s + ds.length - 1 := by
  intro s ds
  induction ds generalizing s with
  | nil => intro h; exact absurd rfl h
  | cons d ds ih =>
    intro _
    cases ds with
    | nil =>
      refine ⟨_, List.mem_cons_self _ _, ?_⟩
      simp [debitMovements]
    | cons d2 ds2 =>
      obtain ⟨m, hm, hid⟩ := ih (s + 1) (by simp)
      refine ⟨m, List.mem_cons_of_mem _ hm, ?_⟩
      rw [hid]
      simp only [List.length_cons]
      omega

/-- Mapping the note update over the movements of one issue rewrites exactly the last
one when the target id is the last allotted id. -/
theorem debitMovements_note_update (i now : Nat) (note : String) :
    ∀ (s : Nat) (ds : List (StockBatch × Int)), ds ≠ [] →
      ∃ ms0 mlast,
        ((debitMovements i now s ds).map fun m =>
            if m.id == s + ds.length - 1 then { m with note := some note } else m) =
          ms0 ++ [mlast] ∧
        (∀ m ∈ ms0, m.note = none ∧ m.item_id = i ∧ m.type = "issue") ∧
        mlast.note = some note ∧ mlast.item_id = i ∧ mlast.type = "issue" ∧
        ms0.length + 1 = ds.length := by
  intro s ds
  induction ds generalizing s with
  | nil => intro h; exact absurd rfl h
  | cons d ds ih =>
    intro _
    cases ds with
    | nil =>
      refine ⟨[], ({ id := s, item_id := i, type := "issue", quantity := d.2,
                     timestamp := now, note := some note, batch_id := some d.1.id } :
                    StockMovement), ?_, by simp, rfl, rfl, rfl, rfl⟩
      show ((debitMovements i now s [d]).map fun m =>
          if m.id == s + 1 - 1 then { m with note := some note } else m) = _
      simp [debitMovements]
    | cons d2 ds2 =>
      obtain ⟨ms0, mlast, heq, h0, hl1, hl2, hl3, hlen⟩ := ih (s + 1) (by simp)
      have hj : (s + 1) + (d2 :: ds2).length - 1 = s + (d :: d2 :: ds2).length - 1 := by
        simp only [List.length_cons]
        omega
      rw [hj] at heq
      refine ⟨({ id := s, item_id := i, type := "issue", quantity := d.2,
                 timestamp := now, note := none, batch_id := some d.1.id } :
                StockMovement) :: ms0, mlast, ?_, ?_, hl1, hl2, hl3, ?_⟩
      · show ((({ id := s, item_id := i, type := "issue", quantity := d.2,
                  timestamp := now, note := none, batch_id := some d.1.id } :
                 StockMovement) :: debitMovements i now (s + 1) (d2 :: ds2)).map fun m =>
            if m.id == s + (d :: d2 :: ds2).length - 1
            then { m with note := some note } else m) = _
        rw [List.map_cons, heq]
        have hfalse : (s == s + (d :: d2 :: ds2).length - 1) = false := by
          simp only [List.length_cons, beq_eq_false_iff_ne, ne_eq]
          omega
        rw [if_neg (by simp [hfalse] : ¬ _ = true)]
        rfl
      · intro m hm
        rcases List.mem_cons.mp hm with rfl | hm2
        · exact ⟨rfl, rfl, rfl⟩
        · exact h0 m hm2
      · simp only [List.length_cons] at hlen ⊢
        omega

/-- The result of a successful issue call (used to instantiate theorems at concrete
inputs; a failed call returns the input state and zeroes). -/
def issueResult (db : DB) (i : Nat) (q : Int) (note : String) (now : Nat) :
    DB × Int × Int :=
  match issue db i q note now with
  | .ok r => r
  | .error _ => (db, 0, 0)

/-- Concrete three-batch database: expiries 2024-03-01, none, 2024-01-01 received in
that order (dates encoded as yyyymmdd numbers). -/
def fifoExampleDB : DB :=
  { items := [⟨1, "widget", none⟩],
    batches := [⟨1, 1, 5, 5, some 20240301, 1⟩, ⟨2, 1, 5, 5, none, 2⟩,
      ⟨3, 1, 5, 5, some 20240101, 3⟩],
    movements := [], nextBatchId := 4, nextMovId := 0 }

/-- Concrete database with a populated movement log: two items, receives and issues at
distinct and at tied timestamps, with and without notes, names differing from the
search keyword only in case. -/
def movExampleDB : DB :=
  { items := [⟨1, "Widget", none⟩, ⟨2, "Gadget", none⟩],
    batches := [⟨1, 1, 5, 2, none, 10⟩, ⟨2, 2, 4, 3, none, 20⟩],
    movements :=
      [⟨0, 1, "receive", 5, 10, some "initial", some 1⟩,
       ⟨1, 2, "receive", 4, 20, none, some 2⟩,
       ⟨2, 1, "issue", 3, 30, some "ward A", some 1⟩,
       ⟨3, 2, "issue", 1, 30, none, some 2⟩],
    nextBatchId := 3, nextMovId := 4 }

/-! ### The claims -/

/-- C1: the allocation loop of `fifo_issue` walks the given lots in order taking an
initial segment, takes `min(lot.qty_remaining, remainingToIssue)` at each lot so every
recorded debit is positive and never exceeds the lot's remaining stock, stops as soon
as the request is filled or the lots run out (issuing exactly `min(q, total stock)`),
returns an issued quantity equal to the sum of the takes (hence shortfall
`q - issuedQty`), never commits a zero-quantity movement, and on lots with remaining
5 and 3 at q = 7 produces debits 5 and 2 with issuedQty 7 and shortfall 0. -/
theorem claim_C1 (lots : List StockBatch) (q : Int)
    (hpos : ∀ b ∈ lots, 0 < b.qty_remaining) :
    ((fifoLoop lots q).1.map Prod.fst = lots.take (fifoLoop lots q).1.length)
    ∧ (∀ d ∈ (fifoLoop lots q).1, 0 < d.2 ∧ d.2 ≤ d.1.qty_remaining)
    ∧ (((fifoLoop lots q).1.map (·.2)).sum = q - (fifoLoop lots q).2)
    ∧ (0 ≤ q → q - (fifoLoop lots q).2 = min q ((lots.map (·.qty_remaining)).sum))
    ∧ (∀ (db : DB) (item : Item) (now : Nat) (m : StockMovement),
        m ∈ (fifo_issue db item q now).1.movements →
        m ∈ db.movements ∨ (0 < m.quantity ∧ m.type = "issue"))
    ∧ (fifoLoop [⟨1, 1, 5, 5, none, 0⟩, ⟨2, 1, 3, 3, none, 1⟩] 7 =
        ([((⟨1, 1, 5, 5, none, 0⟩ : StockBatch), (5 : Int)),
          ((⟨2, 1, 3, 3, none, 1⟩ : StockBatch), (2 : Int))], 0)) := by
  refine ⟨fifoLoop_fst lots q, ?_, fifoLoop_sum lots q, ?_, ?_, by decide⟩
  · intro d hd
    obtain ⟨h1, h2, h3⟩ := fifoLoop_mem hd
    exact ⟨h3 (hpos d.1 h1), h2⟩
  · intro hq
    exact fifoLoop_issued lots q hq (fun b hb => le_of_lt (hpos b hb))
  · intro db item now m hm
    rcases List.mem_append.mp hm with h1 | h1
    · exact Or.inl h1
    · obtain ⟨_, htype, _, _, _, _, d, hd, hq2, _⟩ := mem_debitMovements h1
      have hdf := fifo_issue_debits hd
      exact Or.inr ⟨by rw [hq2]; exact hdf.2.2.1, htype⟩

theorem claim_C1_witness :
    fifoLoop [(⟨1, 1, 5, 5, none, 0⟩ : StockBatch), ⟨2, 1, 3, 3, none, 1⟩] 7 =
      ([((⟨1, 1, 5, 5, none, 0⟩ : StockBatch), (5 : Int)),
        ((⟨2, 1, 3, 3, none, 1⟩ : StockBatch), (2 : Int))], 0) :=
  (claim_C1 [⟨1, 1, 5, 5, none, 0⟩, ⟨2, 1, 3, 3, none, 1⟩] 7 (by decide)).2.2.2.2.2

/-- C2: the sequence of lots `fifo_issue` allocates from consists exactly of the item's
batches with positive remaining quantity; it is sorted by the FIFO key (non-null expiry
ascending first, null expiry last, ascending `received_at` as tiebreak, which is what
`lotLE` states); the sort is stable (each class of equal keys keeps its stored order);
and on expiries [2024-03-01, null, 2024-01-01] received in that order the batches come
back as [2024-01-01, 2024-03-01, null-expiry]. -/
theorem claim_C2 (db : DB) (i : Nat) :
    (activeLotsFor db i).Perm (db.batches.filter (activeFilter i))
    ∧ (∀ b, b ∈ activeLotsFor db i ↔
        b ∈ db.batches ∧ b.item_id = i ∧ 0 < b.qty_remaining)
    ∧ List.Sorted lotLE (activeLotsFor db i)
    ∧ (∀ e r, (activeLotsFor db i).filter
          (fun b => decide (b.expiry_date = e ∧ b.received_at = r)) =
        (db.batches.filter (activeFilter i)).filter
          (fun b => decide (b.expiry_date = e ∧ b.received_at = r)))
    ∧ (activeLotsFor fifoExampleDB 1).map (·.id) = [3, 1, 2] := by
  refine ⟨activeLotsFor_perm db i, fun b => mem_activeLotsFor,
    activeLotsFor_sorted db i, ?_, by decide⟩
  intro e r
  apply filter_insertionSort
  intro a b ha hb
  have ha2 := of_decide_eq_true ha
  have hb2 := of_decide_eq_true hb
  exact Or.inr ⟨by rw [ha2.1, hb2.1], by rw [ha2.2, hb2.2]⟩

theorem claim_C2_witness :
    (activeLotsFor fifoExampleDB 1).map (·.id) = [3, 1, 2] :=
  (claim_C2 fifoExampleDB 1).2.2.2.2

/-- C3: over any sequence of receive/issue requests run from a fresh database, every
item's balance always equals its total received minus its total issued as committed to
the movement log, no balance is ever negative, every stored batch satisfies
0 ≤ remaining ≤ received, and across any further request a surviving batch's remaining
quantity only decreases while its received quantity never changes. -/
theorem claim_C3 (items0 : List Item) (ops : List Op) :
    (∀ i, balance (run (initDB items0) ops) i =
        receivedSum (run (initDB items0) ops) i -
          issuedSum (run (initDB items0) ops) i
      ∧ 0 ≤ balance (run (initDB items0) ops) i)
    ∧ (∀ b ∈ (run (initDB items0) ops).batches,
        0 ≤ b.qty_remaining ∧ b.qty_remaining ≤ b.qty_received)
    ∧ (∀ (op : Op) (b' b : StockBatch),
        b' ∈ (step (run (initDB items0) ops) op).batches →
        b ∈ (run (initDB items0) ops).batches → b'.id = b.id →
        b'.qty_remaining ≤ b.qty_remaining ∧ b'.qty_received = b.qty_received) := by
  obtain ⟨hWF, hbal⟩ := Inv_run (Inv_initDB items0) ops
  refine ⟨fun i => ⟨hbal i, balance_nonneg hWF i⟩, fun b hb => (hWF.2.1 b hb).2, ?_⟩
  intro op b' b hb' hb hid
  exact step_mono hWF op hb' hb hid

theorem claim_C3_witness :
    balance (run (initDB [⟨1, "widget", none⟩])
        [Op.recv 1 5 ExpiryInput.empty "" 0, Op.iss 1 3 "" 1]) 1 =
      receivedSum (run (initDB [⟨1, "widget", none⟩])
        [Op.recv 1 5 ExpiryInput.empty "" 0, Op.iss 1 3 "" 1]) 1 -
      issuedSum (run (initDB [⟨1, "widget", none⟩])
        [Op.recv 1 5 ExpiryInput.empty "" 0, Op.iss 1 3 "" 1]) 1 :=
  ((claim_C3 [⟨1, "widget", none⟩]
    [Op.recv 1 5 ExpiryInput.empty "" 0, Op.iss 1 3 "" 1]).1 1).1

/-- C4: a request exceeding the available stock is not rolled back: the call succeeds,
commits every computed debit (the movement log grows by issue movements of that item
whose quantities sum to the whole old balance, the old log untouched), issues exactly
the old balance, reports the shortfall `qty - balance` as a normal outcome, and leaves
the balance at 0; in particular allocating 10 against one lot of 4 debits the 4 and
leaves remainder 6. -/
theorem claim_C4 (db : DB) (item_id : Nat) (qty : Int) (note : String) (now : Nat)
    (item : Item) (hWF : WF db) (hfind : findItem db item_id = some item)
    (hqty : balance db item_id < qty) :
    (∃ db', issue db item_id qty note now =
        .ok (db', balance db item_id, qty - balance db item_id)
      ∧ balance db' item_id = 0
      ∧ (∃ ms, db'.movements = db.movements ++ ms
          ∧ (ms.map (·.quantity)).sum = balance db item_id
          ∧ ∀ m ∈ ms, m.type = "issue" ∧ m.item_id = item_id)
      ∧ issuedSum db' item_id = issuedSum db item_id + balance db item_id
      ∧ receivedSum db' item_id = receivedSum db item_id)
    ∧ fifoLoop [⟨1, 1, 4, 4, none, 0⟩] 10 =
        ([((⟨1, 1, 4, 4, none, 0⟩ : StockBatch), (4 : Int))], 6) := by
  have hid := findItem_id hfind
  have hb0 : 0 ≤ balance db item_id := balance_nonneg hWF item_id
  have hq0 : 0 < qty := by omega
  have hrems : ∀ b ∈ db.batches, 0 ≤ b.qty_remaining :=
    fun b hb => ((hWF.2.1 b hb).2).1
  have hissued : (fifo_issue db item qty now).2 = balance db item_id := by
    show qty - (fifoLoop (activeLotsFor db item.id) qty).2 = balance db item_id
    rw [fifoLoop_issued (activeLotsFor db item.id) qty (le_of_lt hq0)
        (fun b hb => hrems b (mem_activeLotsFor.mp hb).1),
      activeSum_eq_balance hrems item.id, hid]
    omega
  have hlt : (fifo_issue db item qty now).2 < qty := by omega
  refine ⟨⟨(fifo_issue db item qty now).1, ?_, ?_, ?_, ?_, ?_⟩, by decide⟩
  · show issue db item_id qty note now = _
    unfold issue
    rw [if_neg (by omega)]
    simp only [hfind]
    rw [if_pos hlt, hissued]
  · rw [balance_fifo_issue hWF.1 item qty now item_id, if_pos hid.symm, hissued]
    omega
  · refine ⟨debitMovements item.id now db.nextMovId
      (fifoLoop (activeLotsFor db item.id) qty).1, rfl, ?_, ?_⟩
    · rw [debitMovements_quantities, fifoLoop_sum]
      exact hissued
    · intro m hm
      obtain ⟨h1, h2, _⟩ := mem_debitMovements hm
      exact ⟨h2, by rw [h1, hid]⟩
  · rw [issuedSum_fifo_issue, if_pos hid.symm, hissued]
  · exact receivedSum_fifo_issue db item qty now item_id

theorem claim_C4_witness :
    WF fifoExampleDB ∧ balance fifoExampleDB 1 < 99 ∧
    ∃ db', issue fifoExampleDB 1 99 "w" 9 =
        .ok (db', balance fifoExampleDB 1, 99 - balance fifoExampleDB 1)
      ∧ balance db' 1 = 0 := by
  obtain ⟨⟨db', h1, h2, _⟩, _⟩ := claim_C4 fifoExampleDB 1 99 "w" 9 ⟨1, "widget", none⟩
    (by decide) (by decide) (by decide)
  exact ⟨by decide, by decide, db', h1, h2⟩

/-- C8: deleting an existing item as admin succeeds and removes the item together with
every one of its batches and movements (afterwards the item cannot be found and no
batch or movement references it), while the rows of all other items survive exactly,
in order. -/
theorem claim_C8 (db : DB) (itemId : Nat) (item : Item)
    (hfind : findItem db itemId = some item) :
    ∃ db', item_delete db itemId true = .ok db'
      ∧ findItem db' itemId = none
      ∧ (∀ b ∈ db'.batches, b.item_id ≠ itemId)
      ∧ (∀ m ∈ db'.movements, m.item_id ≠ itemId)
      ∧ (∀ b, b ∈ db'.batches ↔ b ∈ db.batches ∧ b.item_id ≠ itemId)
      ∧ (∀ m, m ∈ db'.movements ↔ m ∈ db.movements ∧ m.item_id ≠ itemId)
      ∧ (∀ it, it ∈ db'.items ↔ it ∈ db.items ∧ it.id ≠ itemId)
      ∧ db'.batches = db.batches.filter (fun b => !(b.item_id == itemId))
      ∧ db'.movements = db.movements.filter (fun m => !(m.item_id == itemId)) := by
  refine ⟨{ db with
      movements := db.movements.filter fun m => !(m.item_id == itemId),
      batches := db.batches.filter fun b => !(b.item_id == itemId),
      items := db.items.filter fun it => !(it.id == itemId) },
    ?_, ?_, ?_, ?_, ?_, ?_, ?_, rfl, rfl⟩
  · unfold item_delete
    simp only [hfind]
    rw [if_pos trivial]
  · unfold findItem
    apply List.find?_eq_none.mpr
    intro it hit
    have h2 := (List.mem_filter.mp hit).2
    simp only [Bool.not_eq_true', beq_eq_false_iff_ne, ne_eq] at h2
    simpa using h2
  · intro b hb
    have h2 := (List.mem_filter.mp hb).2
    simpa using h2
  · intro m hm
    have h2 := (List.mem_filter.mp hm).2
    simpa using h2
  · intro b
    rw [List.mem_filter]
    simp
  · intro m
    rw [List.mem_filter]
    simp
  · intro it
    rw [List.mem_filter]
    simp

theorem claim_C8_witness :
    ∃ db', item_delete fifoExampleDB 1 true = .ok db' ∧ findItem db' 1 = none := by
  obtain ⟨db', h1, h2, _⟩ := claim_C8 fifoExampleDB 1 ⟨1, "widget", none⟩ (by decide)
  exact ⟨db', h1, h2⟩

/-- C5 (the failing part, evaluated): the receive route never checks that the submitted
item exists. Against an empty item table it still succeeds and creates the batch and
its movement, leaving an orphan pair referencing item 1, instead of failing with
NotFound and leaving the state unchanged. -/
theorem claim_C5 :
    (initDB []).items = []
    ∧ ∃ db' batch,
        receive (initDB []) 1 5 ExpiryInput.empty "ref" 0 = .ok (db', batch)
        ∧ batch.item_id = 1 ∧ db'.batches = [batch] ∧ db'.movements.length = 1
        ∧ findItem db' 1 = none := by
  exact ⟨rfl, _, _, rfl, rfl, rfl, rfl, rfl⟩

/-- Characterization of the greatest movement timestamp of one kind. -/
theorem lastKind_some (db : DB) (i : Nat) (k : String) (t : Nat) :
    ((db.movements.filter fun m => m.item_id == i && m.type == k).map
        (·.timestamp)).max? = some t ↔
      ((∃ m ∈ db.movements, m.item_id = i ∧ m.type = k ∧ m.timestamp = t)
        ∧ ∀ m ∈ db.movements, m.item_id = i → m.type = k → m.timestamp ≤ t) := by
  rw [nat_max?_eq_some]
  constructor
  · rintro ⟨hmem, hle⟩
    obtain ⟨m, hm, rfl⟩ := List.mem_map.mp hmem
    obtain ⟨hm2, hcond⟩ := List.mem_filter.mp hm
    simp only [Bool.and_eq_true, beq_iff_eq] at hcond
    refine ⟨⟨m, hm2, hcond.1, hcond.2, rfl⟩, ?_⟩
    intro m' hm' h1 h2
    exact hle _ (List.mem_map_of_mem _ (List.mem_filter.mpr ⟨hm', by simp [h1, h2]⟩))
  · rintro ⟨⟨m, hm, h1, h2, h3⟩, hmax⟩
    constructor
    · rw [← h3]
      exact List.mem_map_of_mem _ (List.mem_filter.mpr ⟨hm, by simp [h1, h2]⟩)
    · intro x hx
      obtain ⟨m', hm', rfl⟩ := List.mem_map.mp hx
      obtain ⟨hm2', hcond'⟩ := List.mem_filter.mp hm'
      simp only [Bool.and_eq_true, beq_iff_eq] at hcond'
      exact hmax m' hm2' hcond'.1 hcond'.2

theorem lastKind_none (db : DB) (i : Nat) (k : String) :
    ((db.movements.filter fun m => m.item_id == i && m.type == k).map
        (·.timestamp)).max? = none ↔
      ∀ m ∈ db.movements, ¬ (m.item_id = i ∧ m.type = k) := by
  rw [List.max?_eq_none_iff, List.map_eq_nil_iff, List.filter_eq_nil_iff]
  constructor
  · intro h m hm hc
    exact h m hm (by simp [hc.1, hc.2])
  · intro h m hm hc
    simp only [Bool.and_eq_true, beq_iff_eq] at hc
    exact h m hm hc

/-- C6: the summary row is computed exactly as specified: the balance is the sum of
`qty_remaining` over the item's batches; the next expiry is the minimum expiry among
batches with stock left and a non-null expiry (absent when there is no such batch, so
null-expiry batches are never treated as soonest); the last receive and issue values
are the maxima of the movement timestamps of each kind (absent when there are none). -/
theorem claim_C6 (db : DB) (i : Nat) :
    ((item_summary_row db i).remain = balance db i)
    ∧ (∀ d, (item_summary_row db i).next_expiry = some d ↔
        ((∃ b ∈ db.batches,
            b.item_id = i ∧ 0 < b.qty_remaining ∧ b.expiry_date = some d)
          ∧ ∀ b ∈ db.batches, b.item_id = i → 0 < b.qty_remaining →
              ∀ e, b.expiry_date = some e → d ≤ e))
    ∧ ((item_summary_row db i).next_expiry = none ↔
        ∀ b ∈ db.batches,
          ¬ (b.item_id = i ∧ 0 < b.qty_remaining ∧ b.expiry_date.isSome = true))
    ∧ (∀ t, (item_summary_row db i).last_receive = some t ↔
        ((∃ m ∈ db.movements, m.item_id = i ∧ m.type = "receive" ∧ m.timestamp = t)
          ∧ ∀ m ∈ db.movements, m.item_id = i → m.type = "receive" →
              m.timestamp ≤ t))
    ∧ ((item_summary_row db i).last_receive = none ↔
        ∀ m ∈ db.movements, ¬ (m.item_id = i ∧ m.type = "receive"))
    ∧ (∀ t, (item_summary_row db i).last_issue = some t ↔
        ((∃ m ∈ db.movements, m.item_id = i ∧ m.type = "issue" ∧ m.timestamp = t)
          ∧ ∀ m ∈ db.movements, m.item_id = i → m.type = "issue" →
              m.timestamp ≤ t))
    ∧ ((item_summary_row db i).last_issue = none ↔
        ∀ m ∈ db.movements, ¬ (m.item_id = i ∧ m.type = "issue")) := by
  refine ⟨rfl, ?_, ?_, fun t => lastKind_some db i "receive" t,
    lastKind_none db i "receive", fun t => lastKind_some db i "issue" t,
    lastKind_none db i "issue"⟩
  · intro d
    show ((db.batches.filter fun b => b.item_id == i && decide (0 < b.qty_remaining)
        && b.expiry_date.isSome).filterMap (·.expiry_date)).min? = some d ↔ _
    rw [nat_min?_eq_some]
    constructor
    · rintro ⟨hmem, hle⟩
      obtain ⟨b, hb, hbd⟩ := List.mem_filterMap.mp hmem
      obtain ⟨hb2, hcond⟩ := List.mem_filter.mp hb
      simp only [Bool.and_eq_true, beq_iff_eq, decide_eq_true_eq] at hcond
      refine ⟨⟨b, hb2, hcond.1.1, hcond.1.2, hbd⟩, ?_⟩
      intro b' hb' h1 h2 e he
      exact hle e (List.mem_filterMap.mpr
        ⟨b', List.mem_filter.mpr ⟨hb', by simp [h1, h2, he]⟩, he⟩)
    · rintro ⟨⟨b, hb, h1, h2, h3⟩, hmin⟩
      refine ⟨List.mem_filterMap.mpr
        ⟨b, List.mem_filter.mpr ⟨hb, by simp [h1, h2, h3]⟩, h3⟩, ?_⟩
      intro x hx
      obtain ⟨b', hb', hbd'⟩ := List.mem_filterMap.mp hx
      obtain ⟨hb2', hcond'⟩ := List.mem_filter.mp hb'
      simp only [Bool.and_eq_true, beq_iff_eq, decide_eq_true_eq] at hcond'
      exact hmin b' hb2' hcond'.1.1 hcond'.1.2 x hbd'
  · show ((db.batches.filter fun b => b.item_id == i && decide (0 < b.qty_remaining)
        && b.expiry_date.isSome).filterMap (·.expiry_date)).min? = none ↔ _
    rw [List.min?_eq_none_iff]
    constructor
    · intro h b hb hc
      obtain ⟨e, he⟩ := Option.isSome_iff_exists.mp hc.2.2
      have hmem : e ∈ (db.batches.filter fun b => b.item_id == i
          && decide (0 < b.qty_remaining) && b.expiry_date.isSome).filterMap
            (·.expiry_date) :=
        List.mem_filterMap.mpr
          ⟨b, List.mem_filter.mpr ⟨hb, by simp [hc.1, hc.2.1, he]⟩, he⟩
      rw [h] at hmem
      exact absurd hmem (List.not_mem_nil e)
    · intro h
      have hfil : (db.batches.filter fun b => b.item_id == i
          && decide (0 < b.qty_remaining) && b.expiry_date.isSome) = [] := by
        apply List.filter_eq_nil_iff.mpr
        intro b hb hc
        simp only [Bool.and_eq_true, beq_iff_eq, decide_eq_true_eq] at hc
        exact h b hb ⟨hc.1.1, hc.1.2, hc.2⟩
      rw [hfil]
      rfl

theorem claim_C6_witness :
    (item_summary_row fifoExampleDB 1).remain = balance fifoExampleDB 1 :=
  (claim_C6 fifoExampleDB 1).1

/-- C7: in a state where every movement's item exists (the route's inner join is then
harmless), the movements query returns exactly the movements passing the requested
filters — kind equality when a concrete kind was requested, timestamp within the
parsed bounds, and the case-insensitive text match against item name or note — ordered
newest first, with rows of equal timestamp kept in stored (insertion/id) order. -/
theorem claim_C7 (db : DB) (f : MovFilter)
    (hjoin : ∀ m ∈ db.movements, (findItem db m.item_id).isSome = true) :
    (∀ m, m ∈ movements_query db f ↔
      (m ∈ db.movements
        ∧ (f.t = "receive" ∨ f.t = "issue" → m.type = f.t)
        ∧ (∀ s, f.startB = some s → s ≤ m.timestamp)
        ∧ (∀ e, f.endB = some e → m.timestamp < e)
        ∧ (f.keyword ≠ "" →
            (textHit f.keyword (((findItem db m.item_id).map Item.name).getD "")
              || textHit f.keyword (m.note.getD "")) = true)))
    ∧ List.Pairwise (fun a b => b.timestamp ≤ a.timestamp) (movements_query db f)
    ∧ (∀ ts, (movements_query db f).filter (fun m => m.timestamp == ts) =
        (db.movements.filter (movMatch db f)).filter (fun m => m.timestamp == ts)) := by
  refine ⟨?_, movements_query_sorted db f, movements_query_stable db f⟩
  intro m
  rw [mem_movements_query]
  unfold movMatch
  constructor
  · rintro ⟨hmem, hmatch⟩
    simp only [Bool.and_eq_true] at hmatch
    obtain ⟨⟨⟨⟨hjn, hkind⟩, hstart⟩, hend⟩, htext⟩ := hmatch
    refine ⟨hmem, ?_, ?_, ?_, ?_⟩
    · intro ht
      have hcond : (f.t == "receive" || f.t == "issue") = true := by
        rcases ht with h | h <;> simp [h]
      rw [if_pos hcond] at hkind
      simpa using hkind
    · intro s hs
      rw [hs] at hstart
      exact of_decide_eq_true hstart
    · intro e he
      rw [he] at hend
      exact of_decide_eq_true hend
    · intro hk
      rw [if_neg (by simp [hk])] at htext
      exact htext
  · rintro ⟨hmem, h1, h2, h3, h4⟩
    refine ⟨hmem, ?_⟩
    simp only [Bool.and_eq_true]
    refine ⟨⟨⟨⟨hjoin m hmem, ?_⟩, ?_⟩, ?_⟩, ?_⟩
    · by_cases hc : (f.t == "receive" || f.t == "issue") = true
      · rw [if_pos hc]
        have ht : f.t = "receive" ∨ f.t = "issue" := by
          rcases Bool.or_eq_true_iff.mp hc with h | h
          · exact Or.inl (by simpa using h)
          · exact Or.inr (by simpa using h)
        simp [h1 ht]
      · rw [if_neg hc]
    · cases hs : f.startB with
      | none => rfl
      | some s => exact decide_eq_true (h2 s hs)
    · cases he : f.endB with
      | none => rfl
      | some e => exact decide_eq_true (h3 e he)
    · by_cases hk : f.keyword = ""
      · rw [if_pos (by simp [hk])]
      · rw [if_neg (by simp [hk])]
        exact h4 hk

theorem claim_C7_witness :
    (∀ m ∈ movExampleDB.movements, (findItem movExampleDB m.item_id).isSome = true)
    ∧ ((⟨2, 1, "issue", 3, 30, some "ward A", some 1⟩ : StockMovement) ∈
          movExampleDB.movements
        ∧ (⟨2, 1, "issue", 3, 30, some "ward A", some 1⟩ : StockMovement).type =
            "issue")
    ∧ List.Pairwise (fun a b => b.timestamp ≤ a.timestamp)
        (movements_query movExampleDB ⟨"all", none, none, ""⟩)
    ∧ ((movements_query movExampleDB ⟨"all", none, none, ""⟩).filter
          (fun m => m.timestamp == 30) =
        (movExampleDB.movements.filter
          (movMatch movExampleDB ⟨"all", none, none, ""⟩)).filter
          (fun m => m.timestamp == 30)) := by
  have h := ((claim_C7 movExampleDB ⟨"issue", some 15, some 35, "widget"⟩
      (by decide)).1 ⟨2, 1, "issue", 3, 30, some "ward A", some 1⟩).mp (by decide)
  refine ⟨by decide, ⟨h.1, h.2.1 (Or.inr rfl)⟩, ?_, ?_⟩
  · exact (claim_C7 movExampleDB ⟨"all", none, none, ""⟩ (by decide)).2.1
  · exact (claim_C7 movExampleDB ⟨"all", none, none, ""⟩ (by decide)).2.2 30

theorem setNote_movements_eq {db2 : DB} {i : Nat} {note : String} {j : Nat}
    (hmax : ((db2.movements.filter fun m =>
        m.item_id == i && m.type == "issue").map (·.id)).max? = some j) :
    (setNoteOnLastIssue db2 i note).movements =
      db2.movements.map fun m =>
        if m.id == j then { m with note := some note } else m := by
  unfold setNoteOnLastIssue
  rw [hmax]

/-- C10: when an issue is fully satisfied, the caller's note is stored on exactly the
single most recent issue movement created by that issue (the last lot debited); every
earlier movement of the same issue carries no note and the prior log is untouched.
When there is a shortfall, the note is not recorded on any movement at all. -/
theorem claim_C10 (db : DB) (item_id : Nat) (qty : Int) (note : String) (now : Nat)
    (db' : DB) (issued short : Int) (hWF : WF db)
    (h : issue db item_id qty note now = .ok (db', issued, short)) :
    (short = 0 →
      ∃ ms0 mlast, db'.movements = db.movements ++ ms0 ++ [mlast]
        ∧ mlast.note = some note ∧ mlast.item_id = item_id ∧ mlast.type = "issue"
        ∧ (∀ m ∈ ms0, m.note = none ∧ m.item_id = item_id ∧ m.type = "issue"))
    ∧ (0 < short →
      ∃ ms, db'.movements = db.movements ++ ms ∧ ∀ m ∈ ms, m.note = none) := by
  obtain ⟨hq, item, hitem, hiss, hshort, hcase⟩ := issue_ok h
  have hid := findItem_id hitem
  constructor
  · intro h0
    rcases hcase with ⟨hlt, rfl⟩ | ⟨heqq, rfl⟩
    · omega
    · have hrem0 : issued = qty - (fifoLoop (activeLotsFor db item.id) qty).2 := hiss
      have hsum := fifoLoop_sum (activeLotsFor db item.id) qty
      have hne : (fifoLoop (activeLotsFor db item.id) qty).1 ≠ [] := by
        intro hnil
        rw [hnil] at hsum
        simp only [List.map_nil, List.sum_nil] at hsum
        omega
      have hlen0 : (fifoLoop (activeLotsFor db item.id) qty).1.length ≠ 0 :=
        fun hc => hne (List.length_eq_zero.mp hc)
      have hmax : (((db.movements ++ debitMovements item.id now db.nextMovId
          (fifoLoop (activeLotsFor db item.id) qty).1).filter
            (fun m => m.item_id == item.id && m.type == "issue")).map (·.id)).max? =
          some (db.nextMovId +
            (fifoLoop (activeLotsFor db item.id) qty).1.length - 1) := by
        rw [nat_max?_eq_some]
        constructor
        · obtain ⟨m, hm, hmid⟩ := debitMovements_last_id item.id now db.nextMovId
            (fifoLoop (activeLotsFor db item.id) qty).1 hne
          have hp : (m.item_id == item.id && m.type == "issue") = true := by
            obtain ⟨h1, h2, _⟩ := mem_debitMovements hm
            simp [h1, h2]
          rw [← hmid]
          exact List.mem_map_of_mem _
            (List.mem_filter.mpr ⟨List.mem_append_right _ hm, hp⟩)
        · intro x hx
          obtain ⟨m, hm, rfl⟩ := List.mem_map.mp hx
          have hm2 := (List.mem_filter.mp hm).1
          rcases List.mem_append.mp hm2 with hold | hnew
          · have := hWF.2.2 m hold
            omega
          · have := (mem_debitMovements hnew).2.2.2.2.2.1
            omega
      have hmax2 : (((setNoteOnLastIssue (fifo_issue db item qty now).1 item.id
          note).movements) = (db.movements ++ debitMovements item.id now db.nextMovId
            (fifoLoop (activeLotsFor db item.id) qty).1).map fun m =>
              if m.id == db.nextMovId +
                  (fifoLoop (activeLotsFor db item.id) qty).1.length - 1
              then { m with note := some note } else m) :=
        setNote_movements_eq hmax
      obtain ⟨ms0, mlast, hupd, hms0, hl1, hl2, hl3, _⟩ :=
        debitMovements_note_update item.id now note db.nextMovId
          (fifoLoop (activeLotsFor db item.id) qty).1 hne
      have holdmap : (db.movements.map fun m =>
          if m.id == db.nextMovId +
              (fifoLoop (activeLotsFor db item.id) qty).1.length - 1
          then { m with note := some note } else m) = db.movements := by
        conv_rhs => rw [← List.map_id db.movements]
        apply List.map_congr_left
        intro m hm
        have hmid := hWF.2.2 m hm
        have hne2 : m.id ≠ db.nextMovId +
            (fifoLoop (activeLotsFor db item.id) qty).1.length - 1 := by
          omega
        simp [hne2]
      refine ⟨ms0, mlast, ?_, hl1, by rw [hl2, hid], hl3, ?_⟩
      · rw [hmax2, List.map_append, hupd, holdmap, List.append_assoc]
      · intro m hm
        obtain ⟨hn1, hn2, hn3⟩ := hms0 m hm
        exact ⟨hn1, by rw [hn2, hid], hn3⟩
  · intro hpos
    rcases hcase with ⟨hlt, rfl⟩ | ⟨heqq, rfl⟩
    · refine ⟨debitMovements item.id now db.nextMovId
        (fifoLoop (activeLotsFor db item.id) qty).1, rfl, ?_⟩
      intro m hm
      exact (mem_debitMovements hm).2.2.1
    · omega

theorem claim_C10_witness :
    WF fifoExampleDB ∧
    ∃ ms0 mlast,
      (issueResult fifoExampleDB 1 7 "who" 100).1.movements =
        fifoExampleDB.movements ++ ms0 ++ [mlast]
      ∧ mlast.note = some "who" ∧ (∀ m ∈ ms0, m.note = none) := by
  have h : issue fifoExampleDB 1 7 "who" 100 =
      .ok ((issueResult fifoExampleDB 1 7 "who" 100).1,
        (issueResult fifoExampleDB 1 7 "who" 100).2.1,
        (issueResult fifoExampleDB 1 7 "who" 100).2.2) := by
    rfl
  have h0 : (issueResult fifoExampleDB 1 7 "who" 100).2.2 = 0 := by decide
  obtain ⟨ms0, mlast, h1, h2, _, _, h5⟩ :=
    (claim_C10 fifoExampleDB 1 7 "who" 100 _ _ _ (by decide) h).1 h0
  exact ⟨by decide, ms0, mlast, h1, h2, fun m hm => (h5 m hm).1⟩

end CTR
